import Mathlib

/-!
Shallow embedding of the RoboUber fare-matching core (dispatcher.py, taxi.py)
and proofs of the specification claims about it.

Modelling conventions:
* Python floats are modelled as exact rationals (`ℚ`), Python ints as `ℤ`.
* `float("inf")` results (an undefined ETA) are modelled as `Option ℚ` with
  `none` standing for infinity.
* Python dicts are modelled as insertion-ordered association lists with the
  dict update/delete semantics (`assocSet`, `assocEraseAll`); Python sets of
  taxis are modelled as duplicate-free lists of taxi numbers.
* The world (NetWorld) and the taxis' reachable behaviour, which are external
  to the dispatcher, are an `Env` record: the simulation clock, the
  travel-time/ETA oracle, the taxis' account balances, and whether a
  `recvMsg` call on a given taxi raises (`notifyOk`).
-/

namespace RoboUber

abbrev Coord := ℤ × ℤ
abbrev TaxiId := ℤ

/-- Fare-board key `(call_time, ox, oy, dx, dy)` from `Dispatcher.announceFare`. -/
structure FareKey where
  ct : ℤ
  ox : ℤ
  oy : ℤ
  dx : ℤ
  dy : ℤ
deriving DecidableEq, Repr

def FareKey.origin (k : FareKey) : Coord := (k.ox, k.oy)

def FareKey.dest (k : FareKey) : Coord := (k.dx, k.dy)

/-- Fare-board value `{"price": ..., "max_wait": ..., "allocated": ...}`. -/
structure FareRec where
  price : Option ℚ
  maxWait : ℤ
  allocated : Option TaxiId
deriving DecidableEq, Repr

/-! Association-list primitives with Python-dict semantics. -/

def assocFind [DecidableEq κ] : List (κ × β) → κ → Option β
  | [], _ => none
  | (k, v) :: rest, k0 => if k = k0 then some v else assocFind rest k0

def containsKey [DecidableEq κ] (l : List (κ × β)) (k : κ) : Bool :=
  (assocFind l k).isSome

/-- Dict assignment `d[k] = v`: replace in place if the key exists, else append
(insertion order preserved, as for Python dicts). -/
def assocSet [DecidableEq κ] : List (κ × β) → κ → β → List (κ × β)
  | [], k0, v0 => [(k0, v0)]
  | (k, v) :: rest, k0, v0 =>
      if k = k0 then (k, v0) :: rest else (k, v) :: assocSet rest k0 v0

/-- Dict deletion `del d[k]` (removes every entry with the key; on the
duplicate-free lists produced by the operations this is exactly dict delete). -/
def assocEraseAll [DecidableEq κ] (l : List (κ × β)) (k : κ) : List (κ × β) :=
  l.filter (fun e => e.1 ≠ k)

theorem assocFind_assocSet_self [DecidableEq κ] (l : List (κ × β)) (k : κ) (v : β) :
    assocFind (assocSet l k v) k = some v := by
  induction l with
  | nil => simp [assocSet, assocFind]
  | cons e rest ih =>
      by_cases h : e.1 = k
      · simp [assocSet, h, assocFind]
      · simp [assocSet, h, assocFind, ih]

theorem assocFind_assocSet_ne [DecidableEq κ] (l : List (κ × β)) (k k0 : κ) (v : β)
    (h : k ≠ k0) : assocFind (assocSet l k v) k0 = assocFind l k0 := by
  induction l with
  | nil => simp [assocSet, assocFind, h]
  | cons e rest ih =>
      obtain ⟨k1, v1⟩ := e
      by_cases he : k1 = k
      · subst he
        simp [assocSet, assocFind, h]
      · by_cases he0 : k1 = k0 <;>
          simp [assocSet, assocFind, he, he0, ih, Ne.symm h]

/-! The dispatcher state and its environment. -/

/-- Dispatcher-visible behaviour of the world and of the taxis:
`simTime` is the world clock, `eta t o` models `_eta_minutes` (`none` = the
`float("inf")` case: unknown position, missing node or no route), `balance t`
is the attribute value read by `_fairness_penalty`, and `notifyOk t` says
whether `t.recvMsg(...)` completes without raising. -/
structure Env where
  simTime : ℤ
  eta : TaxiId → Coord → Option ℚ
  balance : TaxiId → ℚ
  notifyOk : TaxiId → Bool

/-- State of `Dispatcher`: fare board, per-origin bid sets, fairness history
(a 64-bounded deque of allocation timestamps per taxi), accumulated revenue,
and the known taxi numbers. -/
structure DState where
  fareBoard : List (FareKey × FareRec)
  bids : List (Coord × List TaxiId)
  history : List (TaxiId × List ℤ)
  revenue : ℚ
  taxis : List TaxiId
deriving DecidableEq, Repr

def bidsAt (s : DState) (o : Coord) : List TaxiId :=
  (assocFind s.bids o).getD []

/-- Python `set.add` on the bid set for an origin. -/
def addBid (s : DState) (o : Coord) (t : TaxiId) : DState :=
  let cur := bidsAt s o
  if t ∈ cur then s else { s with bids := assocSet s.bids o (cur ++ [t]) }

/-- Python `set.remove` (the source wraps it in try/except KeyError). -/
def removeBid (s : DState) (o : Coord) (t : TaxiId) : DState :=
  { s with bids := assocSet s.bids o ((bidsAt s o).filter (fun x => x ≠ t)) }

def historyOf (s : DState) (t : TaxiId) : List ℤ :=
  (assocFind s.history t).getD []

/-- Append to a `deque(maxlen=64)`: drop the oldest entry when full. -/
def dqAppend (dq : List ℤ) (x : ℤ) : List ℤ :=
  if dq.length < 64 then dq ++ [x] else dq.tail ++ [x]

/-- `_mark_alloc`: record the current sim time in the taxi's fairness deque. -/
def markAlloc (env : Env) (s : DState) (t : TaxiId) : DState :=
  { s with history := assocSet s.history t (dqAppend (historyOf s t) env.simTime) }

/-- `_jobs_in_window`: allocations recorded within the trailing 180 minutes. -/
def jobsInWindow (env : Env) (s : DState) (t : TaxiId) : ℕ :=
  ((historyOf s t).filter (fun ts => env.simTime - 180 ≤ ts)).length

/-- `_fairness_penalty`: twice the windowed job count, minus one when the
taxi's account balance is negative. -/
def fairnessPenalty (env : Env) (s : DState) (t : TaxiId) : ℚ :=
  2 * (jobsInWindow env s t : ℚ) - (if env.balance t < 0 then 1 else 0)

/-- `_score`: ETA plus fairness penalty; `none` models the infinite score of
an unreachable taxi. -/
def score (env : Env) (s : DState) (t : TaxiId) (o : Coord) : Option ℚ :=
  match env.eta t o with
  | none => none
  | some e => some (e + fairnessPenalty env s t)

/-- Candidate fare keys at an origin, in board (insertion) order; models the
list comprehension over `self._fareBoard.keys()`. -/
def candidatesAt (s : DState) (o : Coord) : List FareKey :=
  (s.fareBoard.map Prod.fst).filter (fun k => k.origin = o)

/-- Stable insertion into a list sorted by descending call time. -/
def insertDescCt (k : FareKey) : List FareKey → List FareKey
  | [] => [k]
  | k0 :: rest => if k.ct ≤ k0.ct then k0 :: insertDescCt k rest else k :: k0 :: rest

/-- Stable sort by most-recent call time first:
`sorted(candidates, key=lambda k: k[0], reverse=True)`. -/
def sortDescCt : List FareKey → List FareKey
  | [] => []
  | k :: rest => insertDescCt k (sortDescCt rest)

/-- Scored bidders with infinite scores filtered out, in bid-set order; models
building `scored` and dropping the `isinf` entries. -/
def scoredBidders (env : Env) (s : DState) (o : Coord) : List (ℚ × TaxiId) :=
  (bidsAt s o).filterMap (fun t => (score env s t o).map (fun sc => (sc, t)))

/-- First element of minimal score: the head of the stable
`scored.sort(key=lambda x: x[0])`, i.e. the earliest entry attaining the
minimum score. -/
def pickMin : (ℚ × TaxiId) → List (ℚ × TaxiId) → (ℚ × TaxiId)
  | best, [] => best
  | best, x :: xs => pickMin (if x.1 < best.1 then x else best) xs

/-- Winning bidder the pass would choose at this origin, if any. -/
def winnerOf (env : Env) (s : DState) (o : Coord) : Option TaxiId :=
  match scoredBidders env s o with
  | [] => none
  | x :: xs => some (pickMin x xs).2

/-- Overwrite the `allocated` field of the fare record under `fkey`. -/
def setAllocated (s : DState) (fkey : FareKey) (a : Option TaxiId) : DState :=
  match assocFind s.fareBoard fkey with
  | none => s
  | some rec0 => { s with fareBoard := assocSet s.fareBoard fkey { rec0 with allocated := a } }

/-- The fare loop of `_allocate_if_ready`, iterating over the candidate keys
(latest call time first).  For each still-unallocated fare: score the current
bidders, pick the winner, mark the allocation, attempt to notify; on success
record fairness history, drop the winner's bid and stop; on a raised
notification undo the allocation and continue with the next fare. -/
def allocLoop (env : Env) (o : Coord) : List FareKey → DState → DState
  | [], s => s
  | fkey :: rest, s =>
      match assocFind s.fareBoard fkey with
      | none => allocLoop env o rest s
      | some rec0 =>
          if rec0.allocated.isSome then allocLoop env o rest s
          else
            match scoredBidders env s o with
            | [] => s
            | x :: xs =>
                let winner := (pickMin x xs).2
                let s1 := setAllocated s fkey (some winner)
                if env.notifyOk winner then
                  removeBid (markAlloc env s1 winner) o winner
                else
                  allocLoop env o rest (setAllocated s1 fkey none)

/-- `_allocate_if_ready`. The source first checks that the origin has a
nonempty bid set and a nonempty candidate list (`scoredBidders` nonempty
implies the bid set is; an empty candidate list makes the loop a no-op). -/
def allocateIfReady (env : Env) (o : Coord) (s : DState) : DState :=
  if bidsAt s o = [] then s
  else allocLoop env o (sortDescCt (candidatesAt s o)) s

/-- One broadcast advisory message `FARE_ADVICE(origin, destination, price)`. -/
structure Advice where
  taxi : TaxiId
  origin : Coord
  dest : Coord
  price : ℚ
deriving DecidableEq, Repr

/-- `announceFare`: insert the fare keyed by `(call_time, origin, destination)`
unless already present, then broadcast an advisory to every taxi (price
defaulting to 0 when unknown).  Returns the new state together with the list
of broadcast messages. -/
def announceFare (ct : ℤ) (o d : Coord) (price : Option ℚ) (maxWait : ℤ)
    (s : DState) : DState × List Advice :=
  let key : FareKey := ⟨ct, o.1, o.2, d.1, d.2⟩
  if containsKey s.fareBoard key then (s, [])
  else
    let rec0 : FareRec := ⟨price, maxWait, none⟩
    ({ s with fareBoard := assocSet s.fareBoard key rec0 },
      s.taxis.map (fun t => ⟨t, o, d, (price.getD 0)⟩))

/-- `receiveBid`: record the bid, then run the allocation pass for the origin. -/
def receiveBid (env : Env) (o : Coord) (t : TaxiId) (s : DState) : DState :=
  allocateIfReady env o (addBid s o t)

/-- `_purge_origin`: drop every fare keyed to the origin, and its bid entry. -/
def purgeOrigin (s : DState) (o : Coord) : DState :=
  { s with
      fareBoard := s.fareBoard.filter (fun e => e.1.origin ≠ o)
      bids := assocEraseAll s.bids o }

/-- `_purge_exact`: drop fares with this exact origin and destination, and the
origin's bid entry. -/
def purgeExact (s : DState) (o d : Coord) : DState :=
  { s with
      fareBoard := s.fareBoard.filter (fun e => ¬(e.1.origin = o ∧ e.1.dest = d))
      bids := assocEraseAll s.bids o }

/-- `notifyFareCancelled` (the taxi notifications do not touch dispatcher
state; purging is all that remains). -/
def notifyFareCancelled (o : Coord) (s : DState) : DState :=
  purgeOrigin s o

/-- `notifyFareCompleted`: credit one ninth of the (clamped, nullable) amount,
record fairness history for the taxi, notify it of payment (dispatcher state
unaffected), and purge the completed fare. -/
def notifyFareCompleted (env : Env) (t : TaxiId) (o d : Coord) (amount : Option ℚ)
    (s : DState) : DState :=
  let add : ℚ := match amount with
    | none => 0
    | some a => max 0 a / 9
  let s1 := { s with revenue := s.revenue + add }
  let s2 := markAlloc env s1 t
  purgeExact s2 o d

def getRevenue (s : DState) : ℚ := s.revenue

/-- The dispatcher operations driven by the world, as named in the claims. -/
inductive DOp where
  | announce (ct : ℤ) (o d : Coord) (price : Option ℚ) (maxWait : ℤ)
  | receiveBid (o : Coord) (t : TaxiId)
  | cancel (o : Coord)
  | complete (t : TaxiId) (o d : Coord) (amount : Option ℚ)

def applyOp (env : Env) : DOp → DState → DState
  | .announce ct o d price mw, s => (announceFare ct o d price mw s).1
  | .receiveBid o t, s => receiveBid env o t s
  | .cancel o, s => notifyFareCancelled o s
  | .complete t o d amount, s => notifyFareCompleted env t o d amount s

def applyOps : List (Env × DOp) → DState → DState
  | [], s => s
  | (env, op) :: rest, s => applyOps rest (applyOp env op s)

/-! Supporting lemmas about the association-list primitives. -/

theorem assocSet_self_of_find [DecidableEq κ] :
    ∀ (l : List (κ × β)) (k : κ) (v : β), assocFind l k = some v → assocSet l k v = l := by
  intro l k v h
  induction l with
  | nil => simp [assocFind] at h
  | cons e rest ih =>
      obtain ⟨k1, v1⟩ := e
      by_cases hk : k1 = k
      · subst hk
        simp [assocFind] at h
        simp [assocSet, h]
      · simp [assocFind, hk] at h
        simp [assocSet, hk, ih h]

theorem assocSet_assocSet [DecidableEq κ] :
    ∀ (l : List (κ × β)) (k : κ) (v w : β),
      assocSet (assocSet l k v) k w = assocSet l k w := by
  intro l k v w
  induction l with
  | nil => simp [assocSet]
  | cons e rest ih =>
      obtain ⟨k1, v1⟩ := e
      by_cases hk : k1 = k
      · subst hk
        simp [assocSet]
      · simp [assocSet, hk, ih]

theorem assocFind_filter_keyPred [DecidableEq κ] (p : κ → Bool) :
    ∀ (l : List (κ × β)) (k : κ),
      assocFind (l.filter (fun e => p e.1)) k =
        if p k then assocFind l k else none := by
  intro l k
  induction l with
  | nil => simp [assocFind]
  | cons e rest ih =>
      obtain ⟨k1, v1⟩ := e
      by_cases hk : k1 = k
      · subst hk
        by_cases hp : p k1 <;> simp [List.filter, hp, assocFind, ih]
      · by_cases hp : p k1 <;> simp [List.filter, hp, assocFind, hk, ih]

/-! Supporting lemmas about the allocation pass. -/

theorem pickMin_mem : ∀ (xs : List (ℚ × TaxiId)) (x : ℚ × TaxiId), pickMin x xs ∈ x :: xs := by
  intro xs
  induction xs with
  | nil =>
      intro x
      simp [pickMin]
  | cons z zs ih =>
      intro x
      show pickMin (if z.1 < x.1 then z else x) zs ∈ x :: z :: zs
      rcases List.mem_cons.mp (ih (if z.1 < x.1 then z else x)) with h1 | h1
      · rw [h1]
        by_cases h : z.1 < x.1
        · rw [if_pos h]
          exact List.mem_cons_of_mem _ (List.mem_cons_self _ _)
        · rw [if_neg h]
          exact List.mem_cons_self _ _
      · exact List.mem_cons_of_mem _ (List.mem_cons_of_mem _ h1)

theorem pickMin_le : ∀ (xs : List (ℚ × TaxiId)) (x y : ℚ × TaxiId),
    y ∈ x :: xs → (pickMin x xs).1 ≤ y.1 := by
  intro xs
  induction xs with
  | nil =>
      intro x y hy
      simp at hy
      simp [pickMin, hy]
  | cons z zs ih =>
      intro x y hy
      have hble : (if z.1 < x.1 then z else x).1 ≤ x.1 ∧
          (if z.1 < x.1 then z else x).1 ≤ z.1 := by
        by_cases h : z.1 < x.1
        · rw [if_pos h]
          exact ⟨le_of_lt h, le_refl _⟩
        · rw [if_neg h]
          exact ⟨le_refl _, le_of_not_lt h⟩
      show (pickMin (if z.1 < x.1 then z else x) zs).1 ≤ y.1
      rcases List.mem_cons.mp hy with rfl | hy2
      · exact le_trans (ih _ _ (List.mem_cons_self _ _)) hble.1
      · rcases List.mem_cons.mp hy2 with rfl | hy3
        · exact le_trans (ih _ _ (List.mem_cons_self _ _)) hble.2
        · exact ih _ y (List.mem_cons_of_mem _ hy3)

theorem scoredBidders_taxi_mem {env : Env} {s : DState} {o : Coord} {p : ℚ × TaxiId}
    (h : p ∈ scoredBidders env s o) : p.2 ∈ bidsAt s o := by
  unfold scoredBidders at h
  rcases List.mem_filterMap.mp h with ⟨t, hmem, heq⟩
  cases hsc : score env s t o with
  | none =>
      rw [hsc] at heq
      simp at heq
  | some v =>
      rw [hsc] at heq
      simp only [Option.map_some, Option.map_some', Option.some.injEq] at heq
      rw [← heq]
      exact hmem

theorem mem_insertDescCt {k x : FareKey} : ∀ l, x ∈ insertDescCt k l ↔ x ∈ k :: l := by
  intro l
  induction l with
  | nil => simp [insertDescCt]
  | cons k0 rest ih =>
      simp only [insertDescCt]
      by_cases h : k.ct ≤ k0.ct
      · rw [if_pos h]
        simp only [List.mem_cons, ih, List.mem_cons]
        tauto
      · rw [if_neg h]

theorem mem_sortDescCt {x : FareKey} : ∀ l, x ∈ sortDescCt l → x ∈ l := by
  intro l
  induction l with
  | nil => simp [sortDescCt]
  | cons k rest ih =>
      intro hx
      rcases List.mem_cons.mp ((mem_insertDescCt (sortDescCt rest)).mp hx) with h | h
      · simp [h]
      · exact List.mem_cons_of_mem _ (ih h)

theorem candidatesAt_origin {s : DState} {o : Coord} {k : FareKey}
    (h : k ∈ candidatesAt s o) : k.origin = o := by
  unfold candidatesAt at h
  rcases List.mem_filter.mp h with ⟨_, h2⟩
  exact of_decide_eq_true h2

theorem DState.ext2 {s1 s2 : DState} (h1 : s1.fareBoard = s2.fareBoard)
    (h2 : s1.bids = s2.bids) (h3 : s1.history = s2.history)
    (h4 : s1.revenue = s2.revenue) (h5 : s1.taxis = s2.taxis) : s1 = s2 := by
  cases s1
  cases s2
  simp_all

theorem setAllocated_fareBoard {s : DState} {fkey : FareKey} {a : Option TaxiId} {r : FareRec}
    (h : assocFind s.fareBoard fkey = some r) :
    (setAllocated s fkey a).fareBoard = assocSet s.fareBoard fkey { r with allocated := a } := by
  unfold setAllocated
  rw [h]

theorem setAllocated_bids (s : DState) (fkey : FareKey) (a : Option TaxiId) :
    (setAllocated s fkey a).bids = s.bids := by
  cases hf : assocFind s.fareBoard fkey <;> simp [setAllocated, hf]

theorem setAllocated_history (s : DState) (fkey : FareKey) (a : Option TaxiId) :
    (setAllocated s fkey a).history = s.history := by
  cases hf : assocFind s.fareBoard fkey <;> simp [setAllocated, hf]

theorem setAllocated_revenue (s : DState) (fkey : FareKey) (a : Option TaxiId) :
    (setAllocated s fkey a).revenue = s.revenue := by
  cases hf : assocFind s.fareBoard fkey <;> simp [setAllocated, hf]

theorem setAllocated_taxis (s : DState) (fkey : FareKey) (a : Option TaxiId) :
    (setAllocated s fkey a).taxis = s.taxis := by
  cases hf : assocFind s.fareBoard fkey <;> simp [setAllocated, hf]

theorem setAllocated_rollback {s : DState} {fkey : FareKey} {r : FareRec} {w : TaxiId}
    (h : assocFind s.fareBoard fkey = some r) (hn : r.allocated = none) :
    setAllocated (setAllocated s fkey (some w)) fkey none = s := by
  have h1 : (setAllocated s fkey (some w)).fareBoard =
      assocSet s.fareBoard fkey { r with allocated := some w } := setAllocated_fareBoard h
  have h2 : assocFind (setAllocated s fkey (some w)).fareBoard fkey =
      some { r with allocated := some w } := by
    rw [h1]
    exact assocFind_assocSet_self _ _ _
  have h4 : ({ r with allocated := none } : FareRec) = r := by
    cases r
    simp_all
  apply DState.ext2
  · rw [setAllocated_fareBoard h2, h1, assocSet_assocSet, h4]
    exact assocSet_self_of_find _ _ _ h
  · rw [setAllocated_bids, setAllocated_bids]
  · rw [setAllocated_history, setAllocated_history]
  · rw [setAllocated_revenue, setAllocated_revenue]
  · rw [setAllocated_taxis, setAllocated_taxis]

theorem markAlloc_fareBoard (env : Env) (s : DState) (t : TaxiId) :
    (markAlloc env s t).fareBoard = s.fareBoard := rfl

theorem markAlloc_revenue (env : Env) (s : DState) (t : TaxiId) :
    (markAlloc env s t).revenue = s.revenue := rfl

theorem removeBid_fareBoard (s : DState) (o : Coord) (t : TaxiId) :
    (removeBid s o t).fareBoard = s.fareBoard := rfl

theorem removeBid_revenue (s : DState) (o : Coord) (t : TaxiId) :
    (removeBid s o t).revenue = s.revenue := rfl

theorem addBid_fareBoard (s : DState) (o : Coord) (t : TaxiId) :
    (addBid s o t).fareBoard = s.fareBoard := by
  unfold addBid
  by_cases h : t ∈ bidsAt s o <;> simp [h]

theorem addBid_history (s : DState) (o : Coord) (t : TaxiId) :
    (addBid s o t).history = s.history := by
  unfold addBid
  by_cases h : t ∈ bidsAt s o <;> simp [h]

theorem addBid_revenue (s : DState) (o : Coord) (t : TaxiId) :
    (addBid s o t).revenue = s.revenue := by
  unfold addBid
  by_cases h : t ∈ bidsAt s o <;> simp [h]

/-- Complete case analysis of the fare loop of `_allocate_if_ready`: either it
leaves the state untouched (no allocatable fare, no finite-score bidder, or the
chosen winner's notification failed on every attempted fare, each attempt being
rolled back), or it allocated exactly one candidate fare, previously
unallocated, to the winner chosen from the scored bidders, whose notification
succeeded, recording fairness history and dropping the winner's bid. -/
theorem allocLoop_cases (env : Env) (o : Coord) :
    ∀ (cands : List FareKey) (s : DState),
      allocLoop env o cands s = s ∨
      ∃ fk rk x xs, fk ∈ cands ∧ assocFind s.fareBoard fk = some rk ∧
        rk.allocated = none ∧
        scoredBidders env s o = x :: xs ∧ env.notifyOk (pickMin x xs).2 = true ∧
        allocLoop env o cands s =
          removeBid (markAlloc env (setAllocated s fk (some (pickMin x xs).2))
            (pickMin x xs).2) o (pickMin x xs).2 := by
  intro cands
  induction cands with
  | nil =>
      intro s
      left
      rfl
  | cons fkey rest ih =>
      intro s
      cases hf : assocFind s.fareBoard fkey with
      | none =>
          have hstep : allocLoop env o (fkey :: rest) s = allocLoop env o rest s := by
            simp [allocLoop, hf]
          rw [hstep]
          rcases ih s with h | ⟨fk, rk, x, xs, hmem, hfk, hun, hsc, hok, heq⟩
          · exact Or.inl h
          · exact Or.inr ⟨fk, rk, x, xs, List.mem_cons_of_mem _ hmem, hfk, hun, hsc, hok, heq⟩
      | some rec0 =>
          cases halloc : rec0.allocated with
          | some a =>
              have hstep : allocLoop env o (fkey :: rest) s = allocLoop env o rest s := by
                simp [allocLoop, hf, halloc]
              rw [hstep]
              rcases ih s with h | ⟨fk, rk, x, xs, hmem, hfk, hun, hsc, hok, heq⟩
              · exact Or.inl h
              · exact Or.inr ⟨fk, rk, x, xs, List.mem_cons_of_mem _ hmem, hfk, hun, hsc, hok, heq⟩
          | none =>
              cases hsc : scoredBidders env s o with
              | nil =>
                  left
                  simp [allocLoop, hf, halloc, hsc]
              | cons x xs =>
                  cases hok : env.notifyOk (pickMin x xs).2 with
                  | true =>
                      right
                      refine ⟨fkey, rec0, x, xs, List.mem_cons_self _ _, hf, halloc, rfl, hok, ?_⟩
                      simp [allocLoop, hf, halloc, hsc, hok]
                  | false =>
                      have hroll : setAllocated (setAllocated s fkey
                          (some (pickMin x xs).2)) fkey none = s :=
                        setAllocated_rollback hf halloc
                      have hstep : allocLoop env o (fkey :: rest) s =
                          allocLoop env o rest s := by
                        simp [allocLoop, hf, halloc, hsc, hok, hroll]
                      rw [hstep]
                      rcases ih s with h | ⟨fk, rk, x2, xs2, hmem, hfk, hun, hsc2, hok2, heq⟩
                      · exact Or.inl h
                      · exact Or.inr ⟨fk, rk, x2, xs2, List.mem_cons_of_mem _ hmem, hfk,
                          hun, hsc.symm.trans hsc2, hok2, heq⟩

/-- Same case analysis lifted to `_allocate_if_ready`. -/
theorem allocateIfReady_cases (env : Env) (o : Coord) (s : DState) :
    allocateIfReady env o s = s ∨
    ∃ fk rk x xs, fk.origin = o ∧ assocFind s.fareBoard fk = some rk ∧
      rk.allocated = none ∧
      scoredBidders env s o = x :: xs ∧ env.notifyOk (pickMin x xs).2 = true ∧
      allocateIfReady env o s =
        removeBid (markAlloc env (setAllocated s fk (some (pickMin x xs).2))
          (pickMin x xs).2) o (pickMin x xs).2 := by
  unfold allocateIfReady
  by_cases hb : bidsAt s o = []
  · simp [hb]
  · rw [if_neg hb]
    rcases allocLoop_cases env o (sortDescCt (candidatesAt s o)) s with h |
      ⟨fk, rk, x, xs, hmem, hfk, hun, hsc, hok, heq⟩
    · exact Or.inl h
    · exact Or.inr ⟨fk, rk, x, xs, candidatesAt_origin (mem_sortDescCt _ hmem),
        hfk, hun, hsc, hok, heq⟩

theorem allocLoop_revenue (env : Env) (o : Coord) (cands : List FareKey) (s : DState) :
    (allocLoop env o cands s).revenue = s.revenue := by
  rcases allocLoop_cases env o cands s with h | ⟨fk, rk, x, xs, _, _, _, _, _, heq⟩
  · rw [h]
  · rw [heq, removeBid_revenue, markAlloc_revenue, setAllocated_revenue]

theorem applyOp_revenue_mono (env : Env) (op : DOp) (s : DState) :
    s.revenue ≤ (applyOp env op s).revenue := by
  cases op with
  | announce ct o d price mw =>
      show s.revenue ≤ (announceFare ct o d price mw s).1.revenue
      unfold announceFare
      by_cases hc : containsKey s.fareBoard ⟨ct, o.1, o.2, d.1, d.2⟩ <;> simp [hc]
  | receiveBid o t =>
      show s.revenue ≤ (receiveBid env o t s).revenue
      unfold receiveBid allocateIfReady
      by_cases hb : bidsAt (addBid s o t) o = []
      · simp [hb, addBid_revenue]
      · rw [if_neg hb, allocLoop_revenue, addBid_revenue]
  | cancel o =>
      show s.revenue ≤ (notifyFareCancelled o s).revenue
      exact le_refl _
  | complete t o d amount =>
      show s.revenue ≤ (notifyFareCompleted env t o d amount s).revenue
      unfold notifyFareCompleted
      cases amount with
      | none => simp [purgeExact, markAlloc]
      | some a =>
          simp only [purgeExact, markAlloc]
          have : (0 : ℚ) ≤ max 0 a / 9 := by positivity
          linarith

/-- Claim C8.  The dispatcher's accumulated revenue, as returned by
`getRevenue`, is monotonically non-decreasing across every sequence of
dispatcher operations (`announceFare`, `receiveBid`, `notifyFareCancelled`,
`notifyFareCompleted`): no operation ever decreases it. -/
theorem revenue_monotone (ops : List (Env × DOp)) (s : DState) :
    getRevenue s ≤ getRevenue (applyOps ops s) := by
  induction ops generalizing s with
  | nil => exact le_refl _
  | cons p rest ih =>
      exact le_trans (applyOp_revenue_mono p.1 p.2 s) (ih (applyOp p.1 p.2 s))

/-- Claim C7.  `announceFare` is idempotent: a second call whose key
`(call_time, origin, destination)` is already present on the fare board leaves
the dispatcher state exactly as it was after the first call and broadcasts no
second advisory to the taxis (whatever price and max-wait the repeat carries). -/
theorem announceFare_idempotent (ct : ℤ) (o d : Coord) (p1 p2 : Option ℚ)
    (mw1 mw2 : ℤ) (s : DState) :
    announceFare ct o d p2 mw2 (announceFare ct o d p1 mw1 s).1 =
      ((announceFare ct o d p1 mw1 s).1, []) := by
  have hcontains : containsKey (announceFare ct o d p1 mw1 s).1.fareBoard
      ⟨ct, o.1, o.2, d.1, d.2⟩ = true := by
    unfold announceFare
    by_cases hc : containsKey s.fareBoard ⟨ct, o.1, o.2, d.1, d.2⟩
    · rw [if_pos hc]
      exact hc
    · rw [if_neg hc]
      show containsKey (assocSet s.fareBoard _ _) _ = true
      unfold containsKey
      rw [assocFind_assocSet_self]
      rfl
  show (if containsKey (announceFare ct o d p1 mw1 s).1.fareBoard
      ⟨ct, o.1, o.2, d.1, d.2⟩ = true then _ else _) = _
  rw [if_pos hcontains]

theorem historyOf_markAlloc (env : Env) (s : DState) (t : TaxiId) :
    historyOf (markAlloc env s t) t = dqAppend (historyOf s t) env.simTime := by
  show (assocFind (assocSet s.history t (dqAppend (historyOf s t) env.simTime)) t).getD [] = _
  rw [assocFind_assocSet_self]
  rfl

theorem historyOf_setAllocated (s : DState) (fkey : FareKey) (a : Option TaxiId) (t : TaxiId) :
    historyOf (setAllocated s fkey a) t = historyOf s t := by
  unfold historyOf
  rw [setAllocated_history]

theorem historyOf_addBid (s : DState) (o : Coord) (t0 t : TaxiId) :
    historyOf (addBid s o t0) t = historyOf s t := by
  unfold historyOf
  rw [addBid_history]

theorem historyOf_notifyFareCompleted (env : Env) (t : TaxiId) (o d : Coord)
    (amt : Option ℚ) (s : DState) :
    historyOf (notifyFareCompleted env t o d amt s) t = dqAppend (historyOf s t) env.simTime := by
  show (assocFind (assocSet s.history t (dqAppend (historyOf s t) env.simTime)) t).getD [] = _
  rw [assocFind_assocSet_self]
  rfl

/-- Claim C1.  Across every dispatcher operation: a fare record whose
`allocated` field is already set keeps exactly that value for as long as the
fare stays on the board (so the field is set at most once per lifetime, the
roll-back of a failed notification being internal to a single pass), and when
an operation does set the field, the operation is a bid arrival for the fare's
own origin and the winning taxi is, at allocation time, a member of that
origin's bid set. -/
theorem allocated_once_and_from_bids (env : Env) (op : DOp) (s : DState)
    (fkey : FareKey) (r r2 : FareRec)
    (hbefore : assocFind s.fareBoard fkey = some r)
    (hafter : assocFind (applyOp env op s).fareBoard fkey = some r2) :
    (∀ a, r.allocated = some a → r2.allocated = some a) ∧
    (r.allocated = none → ∀ w, r2.allocated = some w →
      ∃ o t, op = DOp.receiveBid o t ∧ fkey.origin = o ∧
        w ∈ bidsAt (addBid s o t) o) := by
  have base : r2 = r →
      (∀ a, r.allocated = some a → r2.allocated = some a) ∧
      (r.allocated = none → ∀ w, r2.allocated = some w →
        ∃ o t, op = DOp.receiveBid o t ∧ fkey.origin = o ∧
          w ∈ bidsAt (addBid s o t) o) := by
    rintro rfl
    refine ⟨fun a ha => ha, fun hnone w hw => ?_⟩
    rw [hnone] at hw
    exact Option.noConfusion hw
  cases op with
  | announce ct o d price mw =>
      apply base
      have hafter2 : assocFind (announceFare ct o d price mw s).1.fareBoard fkey = some r2 :=
        hafter
      by_cases hc : containsKey s.fareBoard ⟨ct, o.1, o.2, d.1, d.2⟩
      · have heq : (announceFare ct o d price mw s).1 = s := by
          unfold announceFare
          rw [if_pos hc]
        rw [heq] at hafter2
        exact (Option.some.inj (hbefore.symm.trans hafter2)).symm
      · have hne : (⟨ct, o.1, o.2, d.1, d.2⟩ : FareKey) ≠ fkey := by
          intro hkey
          apply hc
          rw [← hkey] at hbefore
          unfold containsKey
          rw [hbefore]
          rfl
        have hboard : (announceFare ct o d price mw s).1.fareBoard =
            assocSet s.fareBoard ⟨ct, o.1, o.2, d.1, d.2⟩ ⟨price, mw, none⟩ := by
          unfold announceFare
          rw [if_neg hc]
        rw [hboard, assocFind_assocSet_ne _ _ _ _ hne] at hafter2
        exact (Option.some.inj (hbefore.symm.trans hafter2)).symm
  | receiveBid o t =>
      have hafter2 : assocFind (allocateIfReady env o (addBid s o t)).fareBoard fkey =
          some r2 := hafter
      have hbeforeA : assocFind (addBid s o t).fareBoard fkey = some r := by
        rw [addBid_fareBoard]
        exact hbefore
      rcases allocateIfReady_cases env o (addBid s o t) with hsame |
        ⟨fk, rk, x, xs, horig, hfk, hun, hsc, hok, heq⟩
      · apply base
        rw [hsame] at hafter2
        exact (Option.some.inj (hbeforeA.symm.trans hafter2)).symm
      · rw [heq, removeBid_fareBoard, markAlloc_fareBoard, setAllocated_fareBoard hfk] at hafter2
        by_cases hkk : fk = fkey
        · subst hkk
          rw [assocFind_assocSet_self] at hafter2
          have hrk : rk = r := Option.some.inj (hfk.symm.trans hbeforeA)
          have hr2 : r2 = { rk with allocated := some (pickMin x xs).2 } :=
            (Option.some.inj hafter2).symm
          constructor
          · intro a ha
            rw [← hrk, hun] at ha
            exact Option.noConfusion ha
          · intro hnone w hw
            refine ⟨o, t, rfl, horig, ?_⟩
            have hwW : w = (pickMin x xs).2 := by
              rw [hr2] at hw
              exact (Option.some.inj (show some (pickMin x xs).2 = some w from hw)).symm
            rw [hwW]
            have hmem : pickMin x xs ∈ scoredBidders env (addBid s o t) o := by
              rw [hsc]
              exact pickMin_mem xs x
            exact scoredBidders_taxi_mem hmem
        · apply base
          rw [assocFind_assocSet_ne _ _ _ _ hkk] at hafter2
          exact (Option.some.inj (hbeforeA.symm.trans hafter2)).symm
  | cancel o =>
      apply base
      have hafter2 : assocFind (s.fareBoard.filter (fun e => e.1.origin ≠ o)) fkey =
          some r2 := hafter
      rw [assocFind_filter_keyPred (fun k : FareKey => decide (k.origin ≠ o))] at hafter2
      by_cases hp : decide (fkey.origin ≠ o) = true
      · rw [if_pos hp] at hafter2
        exact (Option.some.inj (hbefore.symm.trans hafter2)).symm
      · rw [if_neg hp] at hafter2
        exact Option.noConfusion hafter2
  | complete t o d amount =>
      apply base
      have hafter2 : assocFind
          (s.fareBoard.filter (fun e => ¬(e.1.origin = o ∧ e.1.dest = d))) fkey =
          some r2 := hafter
      rw [assocFind_filter_keyPred (fun k : FareKey => decide (¬(k.origin = o ∧ k.dest = d)))] at hafter2
      by_cases hp : decide (¬(fkey.origin = o ∧ fkey.dest = d)) = true
      · rw [if_pos hp] at hafter2
        exact (Option.some.inj (hbefore.symm.trans hafter2)).symm
      · rw [if_neg hp] at hafter2
        exact Option.noConfusion hafter2

/-- Claim C2, amended.  When notification of the chosen winner fails, the
allocation is rolled back — the pass never leaves a fare allocated to a taxi
whose notification raised — but the failed fare is NOT retried against the
next-best bidder: the pass moves on to the next posted fare at the origin
(choosing the same winner from the unchanged bid set), so when the best-scored
bidder is unreachable the whole pass leaves the dispatcher state untouched and
the fare unallocated, awaiting a future bid arrival. -/
theorem alloc_failure_rolls_back_no_retry :
    (∀ (env : Env) (o : Coord) (s : DState) (w : TaxiId),
      winnerOf env s o = some w → env.notifyOk w = false →
      allocateIfReady env o s = s) ∧
    (∀ (env : Env) (o : Coord) (s : DState) (fkey : FareKey) (r r2 : FareRec) (w : TaxiId),
      assocFind s.fareBoard fkey = some r → r.allocated = none →
      assocFind (allocateIfReady env o s).fareBoard fkey = some r2 →
      r2.allocated = some w → env.notifyOk w = true) := by
  constructor
  · intro env o s w hwin hfail
    rcases allocateIfReady_cases env o s with h | ⟨fk, rk, x, xs, _, _, _, hsc, hok, _⟩
    · exact h
    · exfalso
      unfold winnerOf at hwin
      rw [hsc] at hwin
      have hw : w = (pickMin x xs).2 := (Option.some.inj hwin).symm
      rw [hw, hok] at hfail
      exact Bool.noConfusion hfail
  · intro env o s fkey r r2 w hbefore hnone hafter halloc
    rcases allocateIfReady_cases env o s with h | ⟨fk, rk, x, xs, _, hfk, _, _, hok, heq⟩
    · exfalso
      rw [h] at hafter
      have : r2 = r := Option.some.inj (hafter.symm.trans hbefore)
      rw [this, hnone] at halloc
      exact Option.noConfusion halloc
    · rw [heq, removeBid_fareBoard, markAlloc_fareBoard, setAllocated_fareBoard hfk] at hafter
      by_cases hkk : fk = fkey
      · subst hkk
        rw [assocFind_assocSet_self] at hafter
        have hr2 : r2 = { rk with allocated := some (pickMin x xs).2 } :=
          (Option.some.inj hafter).symm
        have hw : w = (pickMin x xs).2 := by
          rw [hr2] at halloc
          exact (Option.some.inj (show some (pickMin x xs).2 = some w from halloc)).symm
        rw [hw]
        exact hok
      · exfalso
        rw [assocFind_assocSet_ne _ _ _ _ hkk] at hafter
        have : r2 = r := Option.some.inj (hafter.symm.trans hbefore)
        rw [this, hnone] at halloc
        exact Option.noConfusion halloc

/-- Concrete dispatcher scenario falsifying claim C2 as stated: one fare at the
origin, bidders 1 and 2 with finite scores 1 and 5, taxi 1's notification
raising and taxi 2 reachable. -/
def cexKey : FareKey := ⟨0, 0, 0, 5, 5⟩

def cexState : DState :=
  { fareBoard := [(cexKey, ⟨some 10, 60, none⟩)]
    bids := [((0, 0), [1])]
    history := []
    revenue := 0
    taxis := [1, 2] }

def cexEnv : Env :=
  { simTime := 0
    eta := fun t _ => if t = 1 then some 1 else some 5
    balance := fun _ => 0
    notifyOk := fun t => decide (t ≠ 1) }

/-- Counterexample to claim C2 as stated.  Taxi 1 wins on score but its
notification fails; the claim would have the pass retry the same fare with
next-best taxi 2 (reachable, finite score, notification succeeds), leaving the
fare allocated to taxi 2 — instead the pass ends with the fare unallocated. -/
theorem alloc_no_retry_counterexample :
    assocFind (receiveBid cexEnv (0, 0) 2 cexState).fareBoard cexKey =
      some ⟨some 10, 60, none⟩ ∧
    winnerOf cexEnv (addBid cexState (0, 0) 2) (0, 0) = some 1 ∧
    cexEnv.notifyOk 1 = false ∧
    cexEnv.notifyOk 2 = true ∧
    (score cexEnv (addBid cexState (0, 0) 2) 2 (0, 0)).isSome = true := by
  refine ⟨?_, ?_, ?_, ?_, ?_⟩ <;> with_unfolding_all rfl

/-- Claim C5.  With two taxis bidding at an origin carrying a single
still-unallocated fare, identical finite ETAs, and taxi `A` having strictly
fewer allocation timestamps inside the trailing 180-minute fairness window
than taxi `B`, the allocation pass awards the fare to `A` (its score is lower
by at least `2 - 1`, which the balance boost of at most `1` cannot overturn),
provided `A`'s notification succeeds. -/
theorem fairness_window_winner (env : Env) (o : Coord) (s : DState) (fkey : FareKey)
    (r : FareRec) (A B : TaxiId) (e : ℚ)
    (hcand : candidatesAt s o = [fkey])
    (hfind : assocFind s.fareBoard fkey = some r)
    (hun : r.allocated = none)
    (hbids : bidsAt s o = [A, B])
    (hA : env.eta A o = some e) (hB : env.eta B o = some e)
    (hjobs : jobsInWindow env s A < jobsInWindow env s B)
    (hok : env.notifyOk A = true) :
    assocFind (allocateIfReady env o s).fareBoard fkey =
      some { r with allocated := some A } := by
  have hpen : fairnessPenalty env s A < fairnessPenalty env s B := by
    unfold fairnessPenalty
    have hc : ((jobsInWindow env s A : ℚ)) + 1 ≤ (jobsInWindow env s B : ℚ) := by
      exact_mod_cast hjobs
    have h1 : (0 : ℚ) ≤ (if env.balance A < 0 then (1 : ℚ) else 0) := by
      split_ifs <;> norm_num
    have h2 : (if env.balance B < 0 then (1 : ℚ) else 0) ≤ 1 := by
      split_ifs <;> norm_num
    linarith
  have hscored : scoredBidders env s o =
      [(e + fairnessPenalty env s A, A), (e + fairnessPenalty env s B, B)] := by
    unfold scoredBidders
    rw [hbids]
    simp [score, hA, hB]
  have hnotlt : ¬((e + fairnessPenalty env s B, B).1 < (e + fairnessPenalty env s A, A).1) := by
    simp only [not_lt]
    linarith
  have hwin : (pickMin (e + fairnessPenalty env s A, A)
      [(e + fairnessPenalty env s B, B)]).2 = A := by
    unfold pickMin
    rw [if_neg hnotlt]
    rfl
  have hbne : ¬(bidsAt s o = []) := by
    rw [hbids]
    simp
  have hsort : sortDescCt (candidatesAt s o) = [fkey] := by
    rw [hcand]
    rfl
  unfold allocateIfReady
  rw [if_neg hbne, hsort]
  have hloop : allocLoop env o [fkey] s =
      removeBid (markAlloc env (setAllocated s fkey (some A)) A) o A := by
    simp [allocLoop, hfind, hun, hscored, hwin, hok]
  rw [hloop, removeBid_fareBoard, markAlloc_fareBoard, setAllocated_fareBoard hfind,
    assocFind_assocSet_self]

/-- Claim C10.  A fare freshly allocated to taxi `w` by the allocation pass
and later completed contributes exactly two timestamps to `w`'s fairness
deque: one appended by `_allocate_if_ready` at allocation time, and a second
appended again by `notifyFareCompleted` at completion time. -/
theorem alloc_then_complete_counts_twice (env1 env2 : Env) (o o2 d2 : Coord)
    (t w : TaxiId) (amt : Option ℚ) (s : DState) (fkey : FareKey) (r r2 : FareRec)
    (hbefore : assocFind s.fareBoard fkey = some r) (hnone : r.allocated = none)
    (hafter : assocFind (receiveBid env1 o t s).fareBoard fkey = some r2)
    (halloc : r2.allocated = some w) :
    historyOf (receiveBid env1 o t s) w = dqAppend (historyOf s w) env1.simTime ∧
    historyOf (notifyFareCompleted env2 w o2 d2 amt (receiveBid env1 o t s)) w =
      dqAppend (dqAppend (historyOf s w) env1.simTime) env2.simTime := by
  have hbeforeA : assocFind (addBid s o t).fareBoard fkey = some r := by
    rw [addBid_fareBoard]
    exact hbefore
  have hfirst : historyOf (receiveBid env1 o t s) w =
      dqAppend (historyOf s w) env1.simTime := by
    have hafter2 : assocFind (allocateIfReady env1 o (addBid s o t)).fareBoard fkey =
        some r2 := hafter
    rcases allocateIfReady_cases env1 o (addBid s o t) with hsame |
      ⟨fk, rk, x, xs, _, hfk, _, _, _, heq⟩
    · exfalso
      rw [hsame] at hafter2
      have : r2 = r := Option.some.inj (hafter2.symm.trans hbeforeA)
      rw [this, hnone] at halloc
      exact Option.noConfusion halloc
    · have hw : w = (pickMin x xs).2 := by
        rw [heq, removeBid_fareBoard, markAlloc_fareBoard, setAllocated_fareBoard hfk]
          at hafter2
        by_cases hkk : fk = fkey
        · subst hkk
          rw [assocFind_assocSet_self] at hafter2
          have hr2 : r2 = { rk with allocated := some (pickMin x xs).2 } :=
            (Option.some.inj hafter2).symm
          rw [hr2] at halloc
          exact (Option.some.inj
            (show some (pickMin x xs).2 = some w from halloc)).symm
        · exfalso
          rw [assocFind_assocSet_ne _ _ _ _ hkk] at hafter2
          have : r2 = r := Option.some.inj (hafter2.symm.trans hbeforeA)
          rw [this, hnone] at halloc
          exact Option.noConfusion halloc
      show historyOf (allocateIfReady env1 o (addBid s o t)) w = _
      rw [heq, ← hw]
      show historyOf (markAlloc env1 (setAllocated (addBid s o t) fk (some w)) w) w = _
      rw [historyOf_markAlloc, historyOf_setAllocated, historyOf_addBid]
  refine ⟨hfirst, ?_⟩
  rw [historyOf_notifyFareCompleted, hfirst]

/-! Concrete dispatcher scenarios used by the witnesses. -/

def w1Key : FareKey := ⟨2, 3, 4, 7, 8⟩

def w1State : DState :=
  { fareBoard := [(w1Key, ⟨some 20, 30, none⟩)]
    bids := []
    history := []
    revenue := 0
    taxis := [5] }

def w1Env : Env :=
  { simTime := 1
    eta := fun _ _ => some 2
    balance := fun _ => 0
    notifyOk := fun _ => true }

/-- Witness for C1: a concrete bid arrival that allocates the posted fare to
taxi 5, discharging both hypotheses of the invariant theorem. -/
theorem allocated_once_witness :
    (∀ a, (⟨some 20, 30, none⟩ : FareRec).allocated = some a →
      (⟨some 20, 30, some 5⟩ : FareRec).allocated = some a) ∧
    ((⟨some 20, 30, none⟩ : FareRec).allocated = none →
      ∀ w, (⟨some 20, 30, some 5⟩ : FareRec).allocated = some w →
      ∃ o t, DOp.receiveBid ((3 : ℤ), (4 : ℤ)) 5 = DOp.receiveBid o t ∧
        w1Key.origin = o ∧ w ∈ bidsAt (addBid w1State o t) o) :=
  allocated_once_and_from_bids w1Env (DOp.receiveBid (3, 4) 5) w1State w1Key
    ⟨some 20, 30, none⟩ ⟨some 20, 30, some 5⟩
    (by with_unfolding_all rfl) (by with_unfolding_all rfl)

/-- Witness for C2 (amended): the failing-winner pass leaves the concrete state
untouched, and the concrete successful allocation went to a notified taxi. -/
theorem alloc_failure_witness :
    allocateIfReady cexEnv (0, 0) (addBid cexState (0, 0) 2) =
      addBid cexState (0, 0) 2 ∧
    w1Env.notifyOk 5 = true :=
  ⟨alloc_failure_rolls_back_no_retry.1 cexEnv (0, 0) (addBid cexState (0, 0) 2) 1
      (by with_unfolding_all rfl) (by with_unfolding_all rfl),
    alloc_failure_rolls_back_no_retry.2 w1Env (3, 4) (addBid w1State (3, 4) 5) w1Key
      ⟨some 20, 30, none⟩ ⟨some 20, 30, some 5⟩ 5
      (by with_unfolding_all rfl) (by with_unfolding_all rfl)
      (by with_unfolding_all rfl) (by with_unfolding_all rfl)⟩

def w5Key : FareKey := ⟨1, 0, 0, 9, 9⟩

def w5State : DState :=
  { fareBoard := [(w5Key, ⟨some 15, 60, none⟩)]
    bids := [((0, 0), [9, 8])]
    history := [(8, [100, 150])]
    revenue := 0
    taxis := [8, 9] }

def w5Env : Env :=
  { simTime := 160
    eta := fun _ _ => some 3
    balance := fun _ => 0
    notifyOk := fun _ => true }

/-- Witness for C5: taxis 9 (no recent allocations) and 8 (two timestamps in
the window) with equal ETA 3; taxi 9 is awarded the fare. -/
theorem fairness_window_winner_witness :
    assocFind (allocateIfReady w5Env (0, 0) w5State).fareBoard w5Key =
      some ⟨some 15, 60, some 9⟩ :=
  fairness_window_winner w5Env (0, 0) w5State w5Key ⟨some 15, 60, none⟩ 9 8 3
    (by with_unfolding_all rfl) (by with_unfolding_all rfl)
    (by with_unfolding_all rfl) (by with_unfolding_all rfl)
    (by with_unfolding_all rfl) (by with_unfolding_all rfl)
    (by decide) (by with_unfolding_all rfl)

/-- Witness for C10: the concrete allocation to taxi 5 followed by completion
appends exactly the two clock timestamps to taxi 5's fairness deque. -/
theorem alloc_then_complete_witness :
    historyOf (receiveBid w1Env (3, 4) 5 w1State) 5 =
      dqAppend (historyOf w1State 5) w1Env.simTime ∧
    historyOf (notifyFareCompleted cexEnv 5 (3, 4) (7, 8) (some 18)
        (receiveBid w1Env (3, 4) 5 w1State)) 5 =
      dqAppend (dqAppend (historyOf w1State 5) w1Env.simTime) cexEnv.simTime :=
  alloc_then_complete_counts_twice w1Env cexEnv (3, 4) (3, 4) (7, 8) 5 5 (some 18)
    w1State w1Key ⟨some 20, 30, none⟩ ⟨some 20, 30, some 5⟩
    (by with_unfolding_all rfl) (by with_unfolding_all rfl)
    (by with_unfolding_all rfl) (by with_unfolding_all rfl)

/-! The taxi agent: bid policy (`Taxi._bidOnFare`). -/

/-- World interface read by the taxi: `getNode` success, `travelTime` (the
world reports a negative value for an unreachable pair, which `_bidOnFare`
rejects), and the simulation clock. -/
structure TWorld where
  hasNode : Coord → Bool
  travelTime : Coord → Coord → ℚ
  simTime : ℤ

/-- Taxi attributes read by `_bidOnFare`: whether a passenger is aboard, the
current node (none when unplaced), the taxi's own `_maxFareWait` heuristic,
and its account balance. -/
structure BidCtx where
  hasPassenger : Bool
  loc : Option Coord
  maxFareWait : ℤ
  account : ℚ

/-- Body of `_bidOnFare` once the taxi's position `here` is known. -/
def bidOnFareAt (w : TWorld) (c : BidCtx) (time : ℤ) (origin dest : Coord)
    (price : ℚ) (here : Coord) : Bool :=
  if c.hasPassenger then false
  else if ¬(w.hasNode origin = true) ∨ ¬(w.hasNode dest = true) then false
  else
    let tToOrigin := w.travelTime here origin
    let tToDest := w.travelTime origin dest
    if tToOrigin < 0 ∨ tToDest < 0 then false
    else
      let remainingWait : ℚ := ((c.maxFareWait - (w.simTime - time) : ℤ) : ℚ)
      if remainingWait < 0 ∨ tToOrigin > remainingWait then false
      else if c.account ≤ 0 ∨ c.account - tToOrigin ≤ 0 then false
      else
        let minPrice := max 3 (1/5 * tToDest + 1/10 * tToOrigin)
        decide (price ≥ minPrice)

/-- `Taxi._bidOnFare` (taxi.py:341-379).  Python's float literals `0.2` and
`0.1` are modelled by the exact rationals `1/5` and `1/10`; a passenger aboard
or an unknown position declines immediately. -/
def bidOnFare (w : TWorld) (c : BidCtx) (time : ℤ) (origin dest : Coord)
    (price : ℚ) : Bool :=
  match c.loc with
  | none => false
  | some here => bidOnFareAt w c time origin dest price here

/-- Claim C3, amended.  `_bidOnFare` returns true iff: no passenger aboard, a
known position, both endpoints resolve to world nodes, both travel times are
nonnegative (the world's negative-value convention for unreachable), the taxi
can reach the origin within its own remaining `_maxFareWait` allowance, the
account survives the trip to the origin, and the price clears the lenient
floor `max(3.0, 0.2·t_dest + 0.1·t_origin)` — not the spec's profit formula.
Declining is the total-function `false` result, never an error. -/
theorem bidOnFare_policy (w : TWorld) (c : BidCtx) (time : ℤ) (origin dest : Coord)
    (price : ℚ) (here : Coord) (hloc : c.loc = some here) :
    bidOnFare w c time origin dest price = true ↔
      (c.hasPassenger = false ∧
       w.hasNode origin = true ∧ w.hasNode dest = true ∧
       0 ≤ w.travelTime here origin ∧ 0 ≤ w.travelTime origin dest ∧
       0 ≤ ((c.maxFareWait - (w.simTime - time) : ℤ) : ℚ) ∧
       w.travelTime here origin ≤ ((c.maxFareWait - (w.simTime - time) : ℤ) : ℚ) ∧
       0 < c.account ∧ w.travelTime here origin < c.account ∧
       max 3 (1/5 * w.travelTime origin dest + 1/10 * w.travelTime here origin) ≤ price) := by
  have hred : bidOnFare w c time origin dest price =
      bidOnFareAt w c time origin dest price here := by
    unfold bidOnFare
    rw [hloc]
  rw [hred]
  unfold bidOnFareAt
  by_cases hp : c.hasPassenger
  · simp [hp]
  · rw [if_neg hp]
    simp only [Bool.not_eq_true] at hp
    by_cases hn : ¬(w.hasNode origin = true) ∨ ¬(w.hasNode dest = true)
    · rw [if_pos hn]
      simp only [Bool.false_eq_true, false_iff]
      rintro ⟨_, hno, hnd, _⟩
      rcases hn with h | h
      · exact h hno
      · exact h hnd
    · rw [if_neg hn]
      push_neg at hn
      by_cases hneg : w.travelTime here origin < 0 ∨ w.travelTime origin dest < 0
      · rw [if_pos hneg]
        simp only [Bool.false_eq_true, false_iff]
        rintro ⟨_, _, _, hto, htd, _⟩
        rcases hneg with h | h
        · exact absurd hto (not_le_of_lt h)
        · exact absurd htd (not_le_of_lt h)
      · rw [if_neg hneg]
        push_neg at hneg
        by_cases hwait : ((c.maxFareWait - (w.simTime - time) : ℤ) : ℚ) < 0 ∨
            w.travelTime here origin > ((c.maxFareWait - (w.simTime - time) : ℤ) : ℚ)
        · rw [if_pos hwait]
          simp only [Bool.false_eq_true, false_iff]
          rintro ⟨_, _, _, _, _, hrem, hreach, _⟩
          rcases hwait with h | h
          · exact absurd hrem (not_le_of_lt h)
          · exact absurd hreach (not_le_of_lt h)
        · rw [if_neg hwait]
          push_neg at hwait
          by_cases hacct : c.account ≤ 0 ∨ c.account - w.travelTime here origin ≤ 0
          · rw [if_pos hacct]
            simp only [Bool.false_eq_true, false_iff]
            rintro ⟨_, _, _, _, _, _, _, hpos, hsurv, _⟩
            rcases hacct with h | h
            · exact absurd hpos (not_lt_of_le h)
            · linarith
          · rw [if_neg hacct]
            push_neg at hacct
            rw [decide_eq_true_iff]
            constructor
            · intro hprice
              exact ⟨hp, hn.1, hn.2, hneg.1, hneg.2, hwait.1, hwait.2, hacct.1,
                by linarith [hacct.2], hprice⟩
            · rintro ⟨_, _, _, _, _, _, _, _, _, hprice⟩
              exact hprice

def cex3World : TWorld :=
  { hasNode := fun _ => true
    travelTime := fun _ _ => 200
    simTime := 0 }

def cex3Ctx : BidCtx :=
  { hasPassenger := false
    loc := some (0, 0)
    maxFareWait := 250
    account := 300 }

/-- Counterexample to claim C3 as stated.  With travel times 200 + 200, price
100 and per-minute cost 1 (the taxi's account loses 1 per active minute), the
spec's projected profit `price − (t_origin + t_dest)·cost − margin` is at most
−300 for every nonnegative safety margin, yet `_bidOnFare` bids, because the
code's actual floor is `max(3, 0.2·t_dest + 0.1·t_origin) = 60 ≤ 100`. -/
theorem bidOnFare_profit_counterexample :
    bidOnFare cex3World cex3Ctx 0 (1, 0) (2, 0) 100 = true ∧
    (100 : ℚ) - (cex3World.travelTime (0, 0) (1, 0) +
      cex3World.travelTime (1, 0) (2, 0)) * 1 - 0 ≤ 0 := by
  constructor
  · with_unfolding_all rfl
  · show (100 : ℚ) - ((200 : ℚ) + 200) * 1 - 0 ≤ 0
    norm_num

/-- Witness for C3 (amended): the counterexample scenario discharges the
location hypothesis and both directions of the policy characterisation. -/
theorem bidOnFare_policy_witness :
    bidOnFare cex3World cex3Ctx 0 (1, 0) (2, 0) 100 = true ↔
      (cex3Ctx.hasPassenger = false ∧
       cex3World.hasNode (1, 0) = true ∧ cex3World.hasNode (2, 0) = true ∧
       0 ≤ cex3World.travelTime (0, 0) (1, 0) ∧
       0 ≤ cex3World.travelTime (1, 0) (2, 0) ∧
       0 ≤ ((cex3Ctx.maxFareWait - (cex3World.simTime - 0) : ℤ) : ℚ) ∧
       cex3World.travelTime (0, 0) (1, 0) ≤
         ((cex3Ctx.maxFareWait - (cex3World.simTime - 0) : ℤ) : ℚ) ∧
       0 < cex3Ctx.account ∧
       cex3World.travelTime (0, 0) (1, 0) < cex3Ctx.account ∧
       max 3 (1/5 * cex3World.travelTime (1, 0) (2, 0) +
         1/10 * cex3World.travelTime (0, 0) (1, 0)) ≤ 100) :=
  bidOnFare_policy cex3World cex3Ctx 0 (1, 0) (2, 0) 100 (0, 0) (by with_unfolding_all rfl)

/-! The taxi route planner: `Taxi._planPath` (taxi.py:284-337), an A* search
over the taxi's own map `node → {neighbour: (direction, distance)}`.

The source's heuristic is `math.hypot`, the Euclidean distance between the
integer coordinates — an irrational real in general, which a computable
rational embedding cannot carry verbatim.  The planner is therefore
parameterised over the heuristic `h : Coord → ℚ` toward the fixed
destination; every theorem assumes of `h` exactly what claim C4's premise
("each recorded edge distance is at least the Euclidean distance between the
endpoints") guarantees for the Euclidean heuristic: consistency over the
map's edges (`h u ≤ w + h v` for each recorded edge, by the triangle
inequality).  The search loop is written with explicit fuel; the fuel chosen
by `planPath` is proven sufficient (`astarLoop_total`), so the fuel-exhausted
branch, like the `KeyError` branch of the reconstruction below, is dead
code. -/

/-- Neighbour record `(coords, (direction, distance))`; the recorded distance
is nullable (`float(dist) if dist is not None else 1.0`). -/
abbrev NbrEntry := Coord × ℤ × Option ℚ

abbrev TMap := List (Coord × List NbrEntry)

def mapFind (m : TMap) (c : Coord) : Option (List NbrEntry) := assocFind m c

/-- `self._map.get(current, {})`. -/
def nbrs (m : TMap) (c : Coord) : List NbrEntry := (mapFind m c).getD []

/-- Edge cost: `float(dist) if dist is not None else 1.0`. -/
def stepCost (d : Option ℚ) : ℚ := d.getD 1

/-- Recorded cost of the edge from `a` to `b` (first matching neighbour; a
Python dict has that neighbour at most once). -/
def edgeTo (m : TMap) (a b : Coord) : Option ℚ :=
  (nbrs m a).findSome? (fun e => if e.1 = b then some (stepCost e.2.2) else none)

/-- Heap entries `(f, g, node)`; `heapq` orders them lexicographically. -/
abbrev HeapEntry := ℚ × ℚ × Coord

def entryLe (a b : HeapEntry) : Prop :=
  a.1 < b.1 ∨ (a.1 = b.1 ∧ (a.2.1 < b.2.1 ∨ (a.2.1 = b.2.1 ∧
    (a.2.2.1 < b.2.2.1 ∨ (a.2.2.1 = b.2.2.1 ∧ a.2.2.2 ≤ b.2.2.2)))))

instance (a b : HeapEntry) : Decidable (entryLe a b) := by
  unfold entryLe
  infer_instance

/-- Pop of a `heapq`: the lexicographically least entry and the rest. -/
def extractMin : HeapEntry → List HeapEntry → HeapEntry × List HeapEntry
  | e, [] => (e, [])
  | e, x :: xs =>
      if entryLe e x then
        let r := extractMin e xs
        (r.1, x :: r.2)
      else
        let r := extractMin x xs
        (r.1, e :: r.2)

/-- Search state: the open heap, `g_score`, `came_from` and the closed set. -/
structure AState where
  heap : List HeapEntry
  gs : List (Coord × ℚ)
  cf : List (Coord × Coord)
  closed : List Coord
deriving Repr

/-- One relaxation (`for nbr, (direction, dist) in ...` loop body): when the
tentative score improves on `g_score.get(nbr, inf)`, update `came_from` and
`g_score` and push `(tentative_g + h(nbr), tentative_g, nbr)`. -/
def relaxNbr (h : Coord → ℚ) (gcurr : ℚ) (current : Coord) (st : AState)
    (e : NbrEntry) : AState :=
  let tg := gcurr + stepCost e.2.2
  let improve := match assocFind st.gs e.1 with
    | none => true
    | some g0 => decide (tg < g0)
  if improve then
    { heap := (tg + h e.1, tg, e.1) :: st.heap
      gs := assocSet st.gs e.1 tg
      cf := assocSet st.cf e.1 current
      closed := st.closed }
  else st

def relaxAll (h : Coord → ℚ) (gcurr : ℚ) (current : Coord) (st : AState)
    (es : List NbrEntry) : AState :=
  es.foldl (relaxNbr h gcurr current) st

/-- The main A* loop: pop the least entry, skip it if its node is closed,
close the node, stop on the destination, otherwise relax its neighbours.
`none` is the (provably unreachable) fuel-exhausted case. -/
def astarLoop (m : TMap) (h : Coord → ℚ) (dest : Coord) :
    ℕ → AState → Option AState
  | 0, _ => none
  | fuel + 1, st =>
      match st.heap with
      | [] => some st
      | e :: rest =>
          let pop := extractMin e rest
          let cur := pop.1
          let st2 : AState := { st with heap := pop.2 }
          if cur.2.2 ∈ st.closed then astarLoop m h dest fuel st2
          else
            let st3 : AState := { st2 with closed := cur.2.2 :: st2.closed }
            if cur.2.2 = dest then some st3
            else astarLoop m h dest fuel (relaxAll h cur.2.1 cur.2.2 st3 (nbrs m cur.2.2))

/-- Path reconstruction (`while node != origin: node = came_from[node]`,
followed by the reverse; built here front-first, which is the reversed
result).  `none` is the `KeyError`/non-termination case, proven unreachable
for the states the search produces. -/
def recon (cf : List (Coord × Coord)) (origin : Coord) :
    ℕ → Coord → Option (List Coord)
  | 0, _ => none
  | fr + 1, v =>
      if v = origin then some [origin]
      else
        match assocFind cf v with
        | none => none
        | some u => (recon cf origin fr u).map (fun p => p ++ [v])

/-- Node universe touched by a search from `origin`: the map's keys and every
recorded neighbour (finite, duplicate-free); used only to size the fuel. -/
def nodeUniv (m : TMap) (origin : Coord) : List Coord :=
  (origin :: m.flatMap (fun e => e.1 :: e.2.map (fun nb => nb.1))).dedup

def degSum (m : TMap) (nodes : List Coord) : ℕ :=
  (nodes.map (fun u => (nbrs m u).length)).sum

/-- Fuel bound: one initial pop plus one pop per possible push. -/
def fuelFor (m : TMap) (origin : Coord) : ℕ :=
  1 + (nodeUniv m origin).length + degSum m (nodeUniv m origin)

/-- `Taxi._planPath origin destination`: trivial already-there case, missing
endpoints, then the A* loop from `open_heap = [(0.0, 0.0, origin)]`,
`g_score = {origin: 0.0}`, `came_from = {}`, and reconstruction when the
destination was reached. -/
def planPath (m : TMap) (h : Coord → ℚ) (origin destination : Coord) :
    List Coord :=
  if origin = destination then [origin]
  else if (mapFind m origin).isNone ∨ (mapFind m destination).isNone then []
  else
    let st0 : AState := { heap := [(0, 0, origin)], gs := [(origin, 0)], cf := [], closed := [] }
    match astarLoop m h destination (fuelFor m origin) st0 with
    | none => []
    | some st =>
        match assocFind st.cf destination with
        | none => []
        | some _ => (recon st.cf origin (st.cf.length + 1) destination).getD []

/-! Paths and the graph-side hypotheses of the planner claims. -/

/-- `IsPath m a p c`: `p` lists the nodes of a walk from `a` to `c` along
recorded edges of the map. -/
inductive IsPath (m : TMap) : Coord → List Coord → Coord → Prop where
  | single (a : Coord) : IsPath m a [a] a
  | cons {a b c : Coord} {w : ℚ} {p : List Coord} :
      edgeTo m a b = some w → IsPath m b p c → IsPath m a (a :: p) c

/-- Total recorded cost of a node list. -/
def costOf (m : TMap) : List Coord → ℚ
  | a :: b :: rest => (edgeTo m a b).getD 0 + costOf m (b :: rest)
  | _ => 0

/-- Every recorded edge cost is positive. -/
def PosWeights (m : TMap) : Prop :=
  ∀ e ∈ m, ∀ nb ∈ e.2, 0 < stepCost nb.2.2

/-- The heuristic is consistent over the map's recorded edges — what the
Euclidean heuristic satisfies when each recorded distance dominates the
straight-line distance. -/
def ConsistentH (m : TMap) (h : Coord → ℚ) : Prop :=
  ∀ e ∈ m, ∀ nb ∈ e.2, h e.1 ≤ stepCost nb.2.2 + h nb.1

/-- Well-formedness of a dict-of-dicts map: unique node keys, unique
neighbour targets per node, and every neighbour itself a node of the map. -/
structure WFMap (m : TMap) : Prop where
  keysNodup : (m.map Prod.fst).Nodup
  targetsNodup : ∀ e ∈ m, (e.2.map (fun nb => nb.1)).Nodup
  closedMap : ∀ e ∈ m, ∀ nb ∈ e.2, (mapFind m nb.1).isSome

/-! Basic lemmas about maps, edges, paths and the heap primitive. -/

theorem assocFind_mem [DecidableEq κ] :
    ∀ {l : List (κ × β)} {k : κ} {v : β}, assocFind l k = some v → (k, v) ∈ l := by
  intro l
  induction l with
  | nil => intro k v h; simp [assocFind] at h
  | cons e rest ih =>
      intro k v h
      obtain ⟨k1, v1⟩ := e
      by_cases hk : k1 = k
      · subst hk
        simp [assocFind] at h
        simp [h]
      · simp [assocFind, hk] at h
        exact List.mem_cons_of_mem _ (ih h)

theorem nbr_entry_mem {m : TMap} {a : Coord} {nb : NbrEntry} (h : nb ∈ nbrs m a) :
    ∃ l, (a, l) ∈ m ∧ nb ∈ l := by
  unfold nbrs mapFind at h
  cases hf : assocFind m a with
  | none => rw [hf] at h; simp at h
  | some l =>
      rw [hf] at h
      exact ⟨l, assocFind_mem hf, h⟩

theorem findSome_exists {α β : Type} {f : α → Option β} :
    ∀ {l : List α} {b : β}, l.findSome? f = some b → ∃ a ∈ l, f a = some b := by
  intro l
  induction l with
  | nil =>
      intro b h
      simp [List.findSome?] at h
  | cons x xs ih =>
      intro b h
      rw [List.findSome?_cons] at h
      cases hf : f x with
      | some v =>
          rw [hf] at h
          have h2 : some v = some b := h
          exact ⟨x, List.mem_cons_self _ _, hf.trans h2⟩
      | none =>
          rw [hf] at h
          have h2 : List.findSome? f xs = some b := h
          rcases ih h2 with ⟨a, ha, hfa⟩
          exact ⟨a, List.mem_cons_of_mem _ ha, hfa⟩

theorem edgeTo_exists {m : TMap} {a b : Coord} {w : ℚ} (h : edgeTo m a b = some w) :
    ∃ nb ∈ nbrs m a, nb.1 = b ∧ stepCost nb.2.2 = w := by
  unfold edgeTo at h
  rcases findSome_exists h with ⟨nb, hmem, hnb⟩
  by_cases he : nb.1 = b
  · rw [if_pos he] at hnb
    exact ⟨nb, hmem, he, Option.some.inj hnb⟩
  · rw [if_neg he] at hnb
    exact Option.noConfusion hnb

theorem edgeTo_pos {m : TMap} (hpos : PosWeights m) {a b : Coord} {w : ℚ}
    (h : edgeTo m a b = some w) : 0 < w := by
  rcases edgeTo_exists h with ⟨nb, hmem, _, hw⟩
  rcases nbr_entry_mem hmem with ⟨l, hml, hnl⟩
  rw [← hw]
  exact hpos (a, l) hml nb hnl

theorem edgeTo_consistent {m : TMap} {h : Coord → ℚ} (hcons : ConsistentH m h)
    {a b : Coord} {w : ℚ} (he : edgeTo m a b = some w) : h a ≤ w + h b := by
  rcases edgeTo_exists he with ⟨nb, hmem, hb, hw⟩
  rcases nbr_entry_mem hmem with ⟨l, hml, hnl⟩
  rw [← hw, ← hb]
  exact hcons (a, l) hml nb hnl

theorem nbrs_entry_mem {m : TMap} {a : Coord} (h : nbrs m a ≠ []) :
    (a, nbrs m a) ∈ m := by
  unfold nbrs mapFind at *
  cases hf : assocFind m a with
  | none =>
      rw [hf] at h
      simp at h
  | some l =>
      simpa using assocFind_mem hf

theorem findSome_first_target {b : Coord} :
    ∀ (l : List NbrEntry), (l.map (fun e => e.1)).Nodup →
      ∀ nb ∈ l, nb.1 = b →
      l.findSome? (fun e => if e.1 = b then some (stepCost e.2.2) else none) =
        some (stepCost nb.2.2) := by
  intro l
  induction l with
  | nil =>
      intro _ nb hnb
      simp at hnb
  | cons x xs ih =>
      intro hnodup nb hnb hb
      rw [List.findSome?_cons]
      rcases List.mem_cons.mp hnb with rfl | htail
      · rw [if_pos hb]
      · have hx : ¬(x.1 = b) := by
          intro hxb
          have : x.1 ∈ xs.map (fun e => e.1) := by
            rw [hxb, ← hb]
            exact List.mem_map_of_mem _ htail
          exact (List.nodup_cons.mp hnodup).1 this
        rw [if_neg hx]
        exact ih (List.nodup_cons.mp hnodup).2 nb htail hb

theorem edgeTo_of_nbr {m : TMap} (wf : WFMap m) {a : Coord} {nb : NbrEntry}
    (h : nb ∈ nbrs m a) : edgeTo m a nb.1 = some (stepCost nb.2.2) := by
  have hne : nbrs m a ≠ [] := List.ne_nil_of_mem h
  have hmem : (a, nbrs m a) ∈ m := nbrs_entry_mem hne
  have hnodup : ((nbrs m a).map (fun e => e.1)).Nodup := wf.targetsNodup _ hmem
  exact findSome_first_target (nbrs m a) hnodup nb h rfl

theorem IsPath.head_shape {m : TMap} {a c : Coord} {p : List Coord}
    (h : IsPath m a p c) : ∃ q, p = a :: q := by
  cases h with
  | single => exact ⟨[], rfl⟩
  | cons he ht => exact ⟨_, rfl⟩

theorem IsPath.concat_shape {m : TMap} {a c : Coord} {p : List Coord}
    (h : IsPath m a p c) : ∃ q, p = q ++ [c] ∧ p.dropLast = q := by
  induction h with
  | single a => exact ⟨[], rfl, rfl⟩
  | cons he ht ih =>
      rcases ih with ⟨q, hq, _⟩
      refine ⟨_ :: q, by rw [hq]; rfl, ?_⟩
      rw [hq]
      rw [show (_ :: (q ++ [_]) : List Coord) = (_ :: q) ++ [_] from rfl]
      exact List.dropLast_concat

theorem costOf_nil (m : TMap) : costOf m [] = 0 := rfl

theorem costOf_single (m : TMap) (a : Coord) : costOf m [a] = 0 := rfl

theorem costOf_cons {m : TMap} {a b c : Coord} {w : ℚ} {p : List Coord}
    (he : edgeTo m a b = some w) (hp : IsPath m b p c) :
    costOf m (a :: p) = w + costOf m p := by
  rcases hp.head_shape with ⟨q, rfl⟩
  show (edgeTo m a b).getD 0 + _ = _
  rw [he]
  rfl

theorem costOf_nonneg {m : TMap} (hpos : PosWeights m) {a c : Coord} {p : List Coord}
    (hp : IsPath m a p c) : 0 ≤ costOf m p := by
  induction hp with
  | single a => simp [costOf_single]
  | cons he ht ih =>
      rw [costOf_cons he ht]
      have := edgeTo_pos hpos he
      linarith

theorem IsPath.append_edge {m : TMap} {a u v : Coord} {w : ℚ} {p : List Coord}
    (hp : IsPath m a p u) (he : edgeTo m u v = some w) :
    IsPath m a (p ++ [v]) v ∧ costOf m (p ++ [v]) = costOf m p + w := by
  induction hp with
  | single a =>
      constructor
      · exact IsPath.cons he (IsPath.single v)
      · show (edgeTo m a v).getD 0 + 0 = 0 + w
        rw [he]
        simp
  | cons he2 ht ih =>
      rcases ih he with ⟨ihp, ihc⟩
      constructor
      · exact IsPath.cons he2 ihp
      · rw [show ((_ :: _) ++ [v] : List Coord) = _ :: (_ ++ [v]) from rfl]
        rw [costOf_cons he2 ihp, ihc, costOf_cons he2 ht]
        ring

theorem h_telescope {m : TMap} {h : Coord → ℚ} (hcons : ConsistentH m h)
    {a c : Coord} {p : List Coord} (hp : IsPath m a p c) :
    h a ≤ costOf m p + h c := by
  induction hp with
  | single a => simp [costOf_single]
  | cons he ht ih =>
      rw [costOf_cons he ht]
      have := edgeTo_consistent hcons he
      linarith

theorem IsPath.mem_of_dropLast_closed {m : TMap} {a c : Coord} {p : List Coord}
    {C : List Coord} (hp : IsPath m a p c) (hsub : p.dropLast ⊆ C) (hc : c ∈ C) :
    ∀ x ∈ p, x ∈ C := by
  rcases hp.concat_shape with ⟨q, hq, hdrop⟩
  intro x hx
  rw [hq] at hx
  rcases List.mem_append.mp hx with hx1 | hx2
  · exact hsub (by rw [hdrop]; exact hx1)
  · rw [List.mem_singleton.mp hx2]
    exact hc

theorem IsPath.end_edge {m : TMap} {a c : Coord} {p : List Coord}
    (hp : IsPath m a p c) : a = c ∨ ∃ u w, edgeTo m u c = some w := by
  induction hp with
  | single a => exact Or.inl rfl
  | cons he ht ih =>
      rcases ih with rfl | hrest
      · exact Or.inr ⟨_, _, he⟩
      · exact Or.inr hrest

theorem IsPath.start_edge {m : TMap} {a c : Coord} {p : List Coord}
    (hp : IsPath m a p c) (hne : a ≠ c) : ∃ b w, edgeTo m a b = some w := by
  cases hp with
  | single => exact absurd rfl hne
  | cons he ht => exact ⟨_, _, he⟩

/-! Reconstruction lemmas. -/

theorem recon_mem_self {cf : List (Coord × Coord)} {origin : Coord} :
    ∀ {fr : ℕ} {v : Coord} {p : List Coord}, recon cf origin fr v = some p → v ∈ p := by
  intro fr
  induction fr with
  | zero =>
      intro v p h
      simp [recon] at h
  | succ fr ih =>
      intro v p h
      unfold recon at h
      by_cases hv : v = origin
      · rw [if_pos hv] at h
        rw [← Option.some.inj h, hv]
        exact List.mem_singleton_self _
      · rw [if_neg hv] at h
        cases hu : assocFind cf v with
        | none =>
            rw [hu] at h
            exact Option.noConfusion h
        | some u =>
            rw [hu] at h
            have h2 : Option.map (fun p => p ++ [v]) (recon cf origin fr u) = some p := h
            cases hr : recon cf origin fr u with
            | none =>
                rw [hr] at h2
                exact Option.noConfusion h2
            | some p0 =>
                rw [hr] at h2
                rw [← Option.some.inj (show some (p0 ++ [v]) = some p from h2)]
                simp

theorem recon_agree {cf : List (Coord × Coord)} {origin vnew unew : Coord} :
    ∀ {fr : ℕ} {x : Coord} {p : List Coord},
      recon cf origin fr x = some p → vnew ∉ p →
      recon (assocSet cf vnew unew) origin fr x = some p := by
  intro fr
  induction fr with
  | zero =>
      intro x p h
      simp [recon] at h
  | succ fr ih =>
      intro x p h hnot
      unfold recon at h ⊢
      by_cases hx : x = origin
      · rw [if_pos hx] at h ⊢
        exact h
      · rw [if_neg hx] at h ⊢
        cases hu : assocFind cf x with
        | none =>
            rw [hu] at h
            exact Option.noConfusion h
        | some u =>
            rw [hu] at h
            have h2 : Option.map (fun p => p ++ [x]) (recon cf origin fr u) = some p := h
            cases hr : recon cf origin fr u with
            | none =>
                rw [hr] at h2
                exact Option.noConfusion h2
            | some p0 =>
                rw [hr] at h2
                have hp : p = p0 ++ [x] := (Option.some.inj (show some (p0 ++ [x]) = some p from h2)).symm
                have hxv : vnew ≠ x := by
                  intro hvx
                  apply hnot
                  rw [hp, hvx]
                  simp
                have hv0 : vnew ∉ p0 := by
                  intro hmem
                  exact hnot (by rw [hp]; exact List.mem_append_left _ hmem)
                rw [assocFind_assocSet_ne _ _ _ _ hxv, hu]
                show Option.map (fun p => p ++ [x]) (recon (assocSet cf vnew unew) origin fr u) = some p
                rw [ih hr hv0]
                simp [hp]

theorem assocFind_isSome_assocSet [DecidableEq κ] (l : List (κ × β)) (k k2 : κ) (v2 : β)
    (h : (assocFind l k).isSome = true) :
    (assocFind (assocSet l k2 v2) k).isSome = true := by
  by_cases hk : k2 = k
  · subst hk
    rw [assocFind_assocSet_self]
    rfl
  · rw [assocFind_assocSet_ne _ _ _ _ hk]
    exact h

/-! Heap-pop lemmas. -/

theorem entryLe_fst {a b : HeapEntry} (h : entryLe a b) : a.1 ≤ b.1 := by
  rcases h with h | ⟨h, _⟩
  · exact le_of_lt h
  · exact le_of_eq h

theorem not_entryLe_fst {a b : HeapEntry} (h : ¬entryLe a b) : b.1 ≤ a.1 :=
  le_of_not_lt (fun hlt => h (Or.inl hlt))

theorem extractMin_cons_le {e x : HeapEntry} {xs : List HeapEntry} (he : entryLe e x) :
    extractMin e (x :: xs) = ((extractMin e xs).1, x :: (extractMin e xs).2) := by
  simp only [extractMin]
  rw [if_pos he]

theorem extractMin_cons_gt {e x : HeapEntry} {xs : List HeapEntry} (he : ¬entryLe e x) :
    extractMin e (x :: xs) = ((extractMin x xs).1, e :: (extractMin x xs).2) := by
  simp only [extractMin]
  rw [if_neg he]

theorem extractMin_perm : ∀ (l : List HeapEntry) (e : HeapEntry),
    (e :: l).Perm ((extractMin e l).1 :: (extractMin e l).2) := by
  intro l
  induction l with
  | nil =>
      intro e
      exact List.Perm.refl _
  | cons x xs ih =>
      intro e
      by_cases he : entryLe e x
      · rw [extractMin_cons_le he]
        have h1 : (e :: x :: xs).Perm (x :: e :: xs) := List.Perm.swap x e xs
        have h2 : (x :: e :: xs).Perm
            (x :: (extractMin e xs).1 :: (extractMin e xs).2) := (ih e).cons x
        have h3 : (x :: (extractMin e xs).1 :: (extractMin e xs).2).Perm
            ((extractMin e xs).1 :: x :: (extractMin e xs).2) :=
          List.Perm.swap (extractMin e xs).1 x _
        exact (h1.trans h2).trans h3
      · rw [extractMin_cons_gt he]
        have h2 : (e :: x :: xs).Perm
            (e :: (extractMin x xs).1 :: (extractMin x xs).2) := (ih x).cons e
        have h3 : (e :: (extractMin x xs).1 :: (extractMin x xs).2).Perm
            ((extractMin x xs).1 :: e :: (extractMin x xs).2) :=
          List.Perm.swap (extractMin x xs).1 e _
        exact h2.trans h3

theorem extractMin_le_f : ∀ (l : List HeapEntry) (e : HeapEntry),
    ∀ y ∈ e :: l, ((extractMin e l).1).1 ≤ y.1 := by
  intro l
  induction l with
  | nil =>
      intro e y hy
      rcases List.mem_cons.mp hy with rfl | hy2
      · exact le_refl _
      · simp at hy2
  | cons x xs ih =>
      intro e y hy
      by_cases he : entryLe e x
      · rw [extractMin_cons_le he]
        rcases List.mem_cons.mp hy with rfl | hy2
        · exact ih y y (List.mem_cons_self _ _)
        · rcases List.mem_cons.mp hy2 with rfl | hy3
          · exact le_trans (ih e e (List.mem_cons_self _ _)) (entryLe_fst he)
          · exact ih e y (List.mem_cons_of_mem _ hy3)
      · rw [extractMin_cons_gt he]
        rcases List.mem_cons.mp hy with rfl | hy2
        · exact le_trans (ih x x (List.mem_cons_self _ _)) (not_entryLe_fst he)
        · rcases List.mem_cons.mp hy2 with rfl | hy3
          · exact ih y y (List.mem_cons_self _ _)
          · exact ih x y (List.mem_cons_of_mem _ hy3)

theorem extractMin_mem (l : List HeapEntry) (e : HeapEntry) :
    (extractMin e l).1 ∈ e :: l :=
  (extractMin_perm l e).symm.subset (List.mem_cons_self _ _)

theorem extractMin_length (l : List HeapEntry) (e : HeapEntry) :
    ((extractMin e l).2).length = l.length := by
  have h := (extractMin_perm l e).length_eq
  simp only [List.length_cons] at h
  omega

theorem mem_rest_of_ne {a cur : HeapEntry} {l rest : List HeapEntry}
    (hperm : l.Perm (cur :: rest)) (ha : a ∈ l) (hne : a ≠ cur) : a ∈ rest := by
  rcases List.mem_cons.mp (hperm.subset ha) with h | h
  · exact absurd h hne
  · exact h

theorem nodup_subset_length {α : Type} [DecidableEq α] {l1 l2 : List α}
    (h1 : l1.Nodup) (h2 : l1 ⊆ l2) : l1.length ≤ l2.length := by
  calc l1.length = l1.toFinset.card := (List.toFinset_card_of_nodup h1).symm
    _ ≤ l2.toFinset.card := by
        apply Finset.card_le_card
        intro x hx
        rw [List.mem_toFinset] at hx ⊢
        exact h2 hx
    _ ≤ l2.length := List.toFinset_card_le l2

/-! The A* loop invariant. -/

theorem origin_mem_nodeUniv (m : TMap) (origin : Coord) : origin ∈ nodeUniv m origin := by
  unfold nodeUniv
  rw [List.mem_dedup]
  exact List.mem_cons_self _ _

theorem mem_nodeUniv_of_nbr {m : TMap} {u : Coord} (origin : Coord) {nb : NbrEntry}
    (h : nb ∈ nbrs m u) : nb.1 ∈ nodeUniv m origin := by
  have hne : nbrs m u ≠ [] := List.ne_nil_of_mem h
  have hmem : (u, nbrs m u) ∈ m := nbrs_entry_mem hne
  unfold nodeUniv
  rw [List.mem_dedup]
  apply List.mem_cons_of_mem
  rw [List.mem_flatMap]
  exact ⟨(u, nbrs m u), hmem, List.mem_cons_of_mem _ (List.mem_map_of_mem _ h)⟩

theorem mem_nodeUniv_of_key {m : TMap} {u : Coord} (origin : Coord)
    {l : List NbrEntry} (h : (u, l) ∈ m) : u ∈ nodeUniv m origin := by
  unfold nodeUniv
  rw [List.mem_dedup]
  apply List.mem_cons_of_mem
  rw [List.mem_flatMap]
  exact ⟨(u, l), h, List.mem_cons_self _ _⟩

/-- The per-entry soundness property of `g_score`/`came_from`: the value is
witnessed by an explicit duplicate-free path whose interior is closed and
which the reconstruction of `came_from` rebuilds with any sufficient fuel. -/
def SoundAt (m : TMap) (origin : Coord) (st : AState) (v : Coord) (g : ℚ) : Prop :=
  ∃ p, IsPath m origin p v ∧ costOf m p = g ∧ p.Nodup ∧ p.dropLast ⊆ st.closed ∧
    (∀ x ∈ p, x = origin ∨ (assocFind st.cf x).isSome = true) ∧
    (∀ fr, p.length ≤ fr → recon st.cf origin fr v = some p)

/-- Invariant of the search state after the start node has been expanded.
(`relaxed`, the property that every closed node has relaxed all its
out-edges, is kept separately because the `break` on reaching the
destination closes it without relaxing.) -/
structure ABase (m : TMap) (h : Coord → ℚ) (origin : Coord) (st : AState) : Prop where
  originClosed : origin ∈ st.closed
  gOrigin : assocFind st.gs origin = some 0
  heapEntries : ∀ e ∈ st.heap, e.1 = e.2.1 + h e.2.2 ∧
    ∃ g0, assocFind st.gs e.2.2 = some g0 ∧ g0 ≤ e.2.1
  sound : ∀ v g, assocFind st.gs v = some g → SoundAt m origin st v g
  parentsClosed : ∀ v u, assocFind st.cf v = some u → u ∈ st.closed
  closedExact : ∀ v ∈ st.closed, ∃ g, assocFind st.gs v = some g ∧
    ∀ p, IsPath m origin p v → g ≤ costOf m p
  unclosedInHeap : ∀ v, v ∉ st.closed → ∀ gv, assocFind st.gs v = some gv →
    (gv + h v, gv, v) ∈ st.heap
  heapU : ∀ e ∈ st.heap, e.2.2 ∈ nodeUniv m origin
  closedNodup : st.closed.Nodup
  closedU : st.closed ⊆ nodeUniv m origin

/-- `u` has relaxed the listed out-edges in state `st`. -/
def RelaxedAt (m : TMap) (st : AState) (u : Coord) (es : List NbrEntry) : Prop :=
  ∀ gu, assocFind st.gs u = some gu → ∀ nb ∈ es,
    ∃ gv, assocFind st.gs nb.1 = some gv ∧ gv ≤ gu + stepCost nb.2.2

def RelaxedClosed (m : TMap) (st : AState) : Prop :=
  ∀ u ∈ st.closed, RelaxedAt m st u (nbrs m u)

/-- The state produced by an improving relaxation of edge `u → nb`. -/
def improvedState (h : Coord → ℚ) (gcurr : ℚ) (u : Coord) (st : AState)
    (nb : NbrEntry) : AState :=
  { heap := (gcurr + stepCost nb.2.2 + h nb.1, gcurr + stepCost nb.2.2, nb.1) :: st.heap
    gs := assocSet st.gs nb.1 (gcurr + stepCost nb.2.2)
    cf := assocSet st.cf nb.1 u
    closed := st.closed }

/-- Bundle of facts carried through relaxation steps. -/
structure RelaxStep (h : Coord → ℚ) (gcurr : ℚ) (u : Coord) (st st2 : AState)
    (nb : NbrEntry) : Prop where
  closedEq : st2.closed = st.closed
  gsStable : ∀ v gv, v ∈ st.closed → assocFind st.gs v = some gv →
    assocFind st2.gs v = some gv
  gsMono : ∀ v gv, assocFind st.gs v = some gv →
    ∃ gv2, assocFind st2.gs v = some gv2 ∧ gv2 ≤ gv
  relaxedNb : ∃ gv, assocFind st2.gs nb.1 = some gv ∧ gv ≤ gcurr + stepCost nb.2.2
  heapSub : ∀ e ∈ st.heap, e ∈ st2.heap
  heapLen : st2.heap.length ≤ st.heap.length + 1

theorem relaxNbr_improved {m : TMap} {h : Coord → ℚ} {origin : Coord}
    (wf : WFMap m) (hpos : PosWeights m)
    {st : AState} (hb : ABase m h origin st)
    {u : Coord} {gcurr : ℚ} (hu : u ∈ st.closed) (hg : assocFind st.gs u = some gcurr)
    {nb : NbrEntry} (hnb : nb ∈ nbrs m u)
    (himp : ∀ g0, assocFind st.gs nb.1 = some g0 → gcurr + stepCost nb.2.2 < g0)
    (hvnc : nb.1 ∉ st.closed) :
    ABase m h origin (improvedState h gcurr u st nb) ∧
      RelaxStep h gcurr u st (improvedState h gcurr u st nb) nb := by
  have hedge : edgeTo m u nb.1 = some (stepCost nb.2.2) := edgeTo_of_nbr wf hnb
  obtain ⟨pu, hpu, hcostu, hnodupu, hdropu, hcfu, hreconu⟩ := hb.sound u gcurr hg
  have hpumem : ∀ x ∈ pu, x ∈ st.closed := hpu.mem_of_dropLast_closed hdropu hu
  have hvnotpu : nb.1 ∉ pu := fun hmem => hvnc (hpumem _ hmem)
  obtain ⟨hpathv, hcostv⟩ := hpu.append_edge hedge
  have hvneo : nb.1 ≠ origin := fun he => hvnc (he ▸ hb.originClosed)
  have hgsself : assocFind (improvedState h gcurr u st nb).gs nb.1 =
      some (gcurr + stepCost nb.2.2) := assocFind_assocSet_self _ _ _
  have hgsother : ∀ x, nb.1 ≠ x →
      assocFind (improvedState h gcurr u st nb).gs x = assocFind st.gs x :=
    fun x hx => assocFind_assocSet_ne _ _ _ _ hx
  have hcfself : assocFind (improvedState h gcurr u st nb).cf nb.1 = some u :=
    assocFind_assocSet_self _ _ _
  have hcfother : ∀ x, nb.1 ≠ x →
      assocFind (improvedState h gcurr u st nb).cf x = assocFind st.cf x :=
    fun x hx => assocFind_assocSet_ne _ _ _ _ hx
  constructor
  · refine ⟨hb.originClosed, ?_, ?_, ?_, ?_, ?_, ?_, ?_, hb.closedNodup, hb.closedU⟩
    · rw [hgsother origin hvneo]
      exact hb.gOrigin
    · intro e he
      rcases List.mem_cons.mp he with rfl | hold
      · exact ⟨rfl, gcurr + stepCost nb.2.2, hgsself, le_refl _⟩
      · obtain ⟨hf, g0, hfind0, hle⟩ := hb.heapEntries e hold
        refine ⟨hf, ?_⟩
        by_cases hev : nb.1 = e.2.2
        · refine ⟨gcurr + stepCost nb.2.2, by rw [← hev]; exact hgsself, ?_⟩
          rw [← hev] at hfind0
          exact le_trans (le_of_lt (himp g0 hfind0)) hle
        · exact ⟨g0, by rw [hgsother e.2.2 hev]; exact hfind0, hle⟩
    · intro y g hfind2
      by_cases hy : nb.1 = y
      · subst hy
        rw [hgsself] at hfind2
        have hg2 : g = gcurr + stepCost nb.2.2 := (Option.some.inj hfind2).symm
        refine ⟨pu ++ [nb.1], hpathv, by rw [hcostv, hcostu, hg2], ?_, ?_, ?_, ?_⟩
        · rw [show pu ++ [nb.1] = pu.concat nb.1 from (List.concat_eq_append _ _).symm]
          exact List.Nodup.concat hvnotpu hnodupu
        · rw [List.dropLast_concat]
          intro x hx
          exact hpumem x hx
        · intro x hx
          rcases List.mem_append.mp hx with hx1 | hx2
          · rcases hcfu x hx1 with ho | hs
            · exact Or.inl ho
            · exact Or.inr (assocFind_isSome_assocSet _ _ _ _ hs)
          · rw [List.mem_singleton.mp hx2]
            exact Or.inr (by rw [hcfself]; rfl)
        · intro fr hfr
          rw [List.length_append, List.length_singleton] at hfr
          cases fr with
          | zero => omega
          | succ fr2 =>
              unfold recon
              rw [if_neg hvneo, hcfself]
              have hr2 : recon (improvedState h gcurr u st nb).cf origin fr2 u = some pu :=
                recon_agree (hreconu fr2 (by omega)) hvnotpu
              show Option.map (fun p => p ++ [nb.1])
                (recon (improvedState h gcurr u st nb).cf origin fr2 u) = some (pu ++ [nb.1])
              rw [hr2]
              rfl
      · rw [hgsother y hy] at hfind2
        obtain ⟨py, hpy, hcosty, hnodupy, hdropy, hcfy, hrecony⟩ := hb.sound y g hfind2
        have hvnotpy : nb.1 ∉ py := by
          rcases hpy.concat_shape with ⟨q, hq, hdq⟩
          intro hmem
          rw [hq] at hmem
          rcases List.mem_append.mp hmem with h1 | h2
          · exact hvnc (hdropy (by rw [hdq]; exact h1))
          · exact hy (List.mem_singleton.mp h2)
        refine ⟨py, hpy, hcosty, hnodupy, hdropy, ?_, ?_⟩
        · intro x hx
          rcases hcfy x hx with ho | hs
          · exact Or.inl ho
          · exact Or.inr (assocFind_isSome_assocSet _ _ _ _ hs)
        · intro fr hfr
          exact recon_agree (hrecony fr hfr) hvnotpy
    · intro y u0 hfind2
      by_cases hy : nb.1 = y
      · subst hy
        rw [hcfself] at hfind2
        rw [← Option.some.inj hfind2]
        exact hu
      · rw [hcfother y hy] at hfind2
        exact hb.parentsClosed y u0 hfind2
    · intro y hy
      obtain ⟨g, hgy, hmin⟩ := hb.closedExact y hy
      have hyne : nb.1 ≠ y := fun he => hvnc (he ▸ hy)
      exact ⟨g, by rw [hgsother y hyne]; exact hgy, hmin⟩
    · intro y hy gv hfind2
      by_cases hyv : nb.1 = y
      · subst hyv
        rw [hgsself] at hfind2
        rw [← Option.some.inj hfind2]
        exact List.mem_cons_self _ _
      · rw [hgsother y hyv] at hfind2
        exact List.mem_cons_of_mem _ (hb.unclosedInHeap y hy gv hfind2)
    · intro e he
      rcases List.mem_cons.mp he with rfl | hold
      · exact mem_nodeUniv_of_nbr origin hnb
      · exact hb.heapU e hold
  · refine ⟨rfl, ?_, ?_, ?_, ?_, ?_⟩
    · intro v gv hv hfind2
      have hne : nb.1 ≠ v := fun he => hvnc (he ▸ hv)
      rw [hgsother v hne]
      exact hfind2
    · intro v gv hfind2
      by_cases hv : nb.1 = v
      · subst hv
        exact ⟨gcurr + stepCost nb.2.2, hgsself, le_of_lt (himp gv hfind2)⟩
      · exact ⟨gv, by rw [hgsother v hv]; exact hfind2, le_refl _⟩
    · exact ⟨gcurr + stepCost nb.2.2, hgsself, le_refl _⟩
    · intro e he
      exact List.mem_cons_of_mem _ he
    · show st.heap.length + 1 ≤ st.heap.length + 1
      exact le_refl _

theorem relaxNbr_preserves {m : TMap} {h : Coord → ℚ} {origin : Coord}
    (wf : WFMap m) (hpos : PosWeights m)
    {st : AState} (hb : ABase m h origin st)
    {u : Coord} {gcurr : ℚ} (hu : u ∈ st.closed) (hg : assocFind st.gs u = some gcurr)
    {nb : NbrEntry} (hnb : nb ∈ nbrs m u) :
    ABase m h origin (relaxNbr h gcurr u st nb) ∧
      RelaxStep h gcurr u st (relaxNbr h gcurr u st nb) nb := by
  have hedge : edgeTo m u nb.1 = some (stepCost nb.2.2) := edgeTo_of_nbr wf hnb
  have hpathv : ∀ g0, assocFind st.gs nb.1 = some g0 →
      g0 ≤ gcurr + stepCost nb.2.2 → ¬(nb.1 ∈ st.closed) ∨ True := fun _ _ _ => Or.inr trivial
  cases hfind : assocFind st.gs nb.1 with
  | none =>
      have hvnc : nb.1 ∉ st.closed := by
        intro hmem
        obtain ⟨g, hgy, _⟩ := hb.closedExact nb.1 hmem
        rw [hfind] at hgy
        exact Option.noConfusion hgy
      have hstep : relaxNbr h gcurr u st nb = improvedState h gcurr u st nb := by
        simp [relaxNbr, improvedState, hfind]
      rw [hstep]
      exact relaxNbr_improved wf hpos hb hu hg hnb
        (fun g0 hg0 => absurd (hfind.symm.trans hg0) (by simp)) hvnc
  | some g0 =>
      by_cases hlt : gcurr + stepCost nb.2.2 < g0
      · have hvnc : nb.1 ∉ st.closed := by
          intro hmem
          obtain ⟨g, hgy, hmin⟩ := hb.closedExact nb.1 hmem
          have hgg : g = g0 := Option.some.inj (hgy.symm.trans hfind)
          obtain ⟨pu, hpu, hcostu, _, hdropu, _, _⟩ := hb.sound u gcurr hg
          obtain ⟨hpath2, hcost2⟩ := hpu.append_edge hedge
          have := hmin _ hpath2
          rw [hcost2, hcostu, hgg] at this
          linarith
        have hstep : relaxNbr h gcurr u st nb = improvedState h gcurr u st nb := by
          simp [relaxNbr, improvedState, hfind, hlt]
        rw [hstep]
        refine relaxNbr_improved wf hpos hb hu hg hnb ?_ hvnc
        intro g1 hg1
        rw [Option.some.inj (hfind.symm.trans hg1)] at hlt
        exact hlt
      · have hstep : relaxNbr h gcurr u st nb = st := by
          simp [relaxNbr, hfind, hlt]
        rw [hstep]
        refine ⟨hb, rfl, fun v gv _ hf => hf, fun v gv hf => ⟨gv, hf, le_refl _⟩,
          ⟨g0, hfind, le_of_not_lt hlt⟩, fun e he => he, by omega⟩

theorem relaxAll_preserves {m : TMap} {h : Coord → ℚ} {origin : Coord}
    (wf : WFMap m) (hpos : PosWeights m) :
    ∀ (es : List NbrEntry) (st : AState), ABase m h origin st →
      ∀ {u : Coord} {gcurr : ℚ}, u ∈ st.closed → assocFind st.gs u = some gcurr →
      (∀ nb ∈ es, nb ∈ nbrs m u) →
      ABase m h origin (relaxAll h gcurr u st es) ∧
      (relaxAll h gcurr u st es).closed = st.closed ∧
      (∀ v gv, v ∈ st.closed → assocFind st.gs v = some gv →
        assocFind (relaxAll h gcurr u st es).gs v = some gv) ∧
      (∀ v gv, assocFind st.gs v = some gv →
        ∃ gv2, assocFind (relaxAll h gcurr u st es).gs v = some gv2 ∧ gv2 ≤ gv) ∧
      RelaxedAt m (relaxAll h gcurr u st es) u es ∧
      (∀ e ∈ st.heap, e ∈ (relaxAll h gcurr u st es).heap) ∧
      (relaxAll h gcurr u st es).heap.length ≤ st.heap.length + es.length := by
  intro es
  induction es with
  | nil =>
      intro st hb u gcurr hu hg _
      exact ⟨hb, rfl, fun v gv _ hf => hf, fun v gv hf => ⟨gv, hf, le_refl _⟩,
        fun gu _ nb hnb => absurd hnb (List.not_mem_nil _),
        fun e he => he, Nat.le_add_right _ _⟩
  | cons nb rest ih =>
      intro st hb u gcurr hu hg hsub
      obtain ⟨hb1, hstep⟩ := relaxNbr_preserves wf hpos hb hu hg
        (hsub nb (List.mem_cons_self _ _))
      set st1 := relaxNbr h gcurr u st nb with hst1
      have hu1 : u ∈ st1.closed := by rw [hstep.closedEq]; exact hu
      have hg1 : assocFind st1.gs u = some gcurr := hstep.gsStable u gcurr hu hg
      have hrest : ∀ nb2 ∈ rest, nb2 ∈ nbrs m u :=
        fun nb2 hnb2 => hsub nb2 (List.mem_cons_of_mem _ hnb2)
      obtain ⟨hb2, hcl2, hstable2, hmono2, hrel2, hheap2, hlen2⟩ := ih st1 hb1 hu1 hg1 hrest
      have hfold : relaxAll h gcurr u st (nb :: rest) = relaxAll h gcurr u st1 rest := rfl
      rw [hfold]
      refine ⟨hb2, by rw [hcl2, hstep.closedEq], ?_, ?_, ?_, ?_, ?_⟩
      · intro v gv hv hf
        exact hstable2 v gv (by rw [hstep.closedEq]; exact hv) (hstep.gsStable v gv hv hf)
      · intro v gv hf
        obtain ⟨gv1, hf1, hle1⟩ := hstep.gsMono v gv hf
        obtain ⟨gv2, hf2, hle2⟩ := hmono2 v gv1 hf1
        exact ⟨gv2, hf2, le_trans hle2 hle1⟩
      · intro gu hgu nb2 hnb2
        have hgu2 : gu = gcurr := by
          have := hstable2 u gcurr hu1 hg1
          exact Option.some.inj (hgu.symm.trans this)
        rw [hgu2]
        rcases List.mem_cons.mp hnb2 with rfl | htail
        · obtain ⟨gv1, hf1, hle1⟩ := hstep.relaxedNb
          obtain ⟨gv2, hf2, hle2⟩ := hmono2 nb2.1 gv1 hf1
          exact ⟨gv2, hf2, le_trans hle2 hle1⟩
        · exact hrel2 gcurr (hstable2 u gcurr hu1 hg1) nb2 htail
      · intro e he
        exact hheap2 e (hstep.heapSub e he)
      · calc (relaxAll h gcurr u st1 rest).heap.length ≤ st1.heap.length + rest.length :=
            hlen2
          _ ≤ st.heap.length + 1 + rest.length := by
              have := hstep.heapLen
              omega
          _ = st.heap.length + (nb :: rest).length := by
              simp [List.length_cons]
              omega

/-- Walking from a closed node to an unclosed target must cross the frontier:
some heap entry bounds the walk's f-value.  (With a consistent heuristic the
bound telescopes over the unclosed suffix of the walk.) -/
theorem frontier_path {m : TMap} {h : Coord → ℚ} {origin : Coord}
    (hcons : ConsistentH m h) {st : AState} (hb : ABase m h origin st)
    (hrel : RelaxedClosed m st) :
    ∀ {u t : Coord} {p : List Coord}, IsPath m u p t → u ∈ st.closed →
      t ∉ st.closed → ∀ gu, assocFind st.gs u = some gu →
      ∃ e ∈ st.heap, e.1 ≤ gu + costOf m p + h t := by
  intro u t p hp
  induction hp with
  | single a =>
      intro hu ht
      exact absurd hu ht
  | @cons a b c w p2 he hpb ih =>
      intro hu htc gu hgu
      rcases edgeTo_exists he with ⟨nb, hnbm, hnb1, hnbw⟩
      obtain ⟨gb0, hgb, hgble⟩ := hrel a hu gu hgu nb hnbm
      rw [hnb1] at hgb
      rw [hnbw] at hgble
      by_cases hbc : b ∈ st.closed
      · obtain ⟨e2, hem, hle⟩ := ih hbc htc gb0 hgb
        refine ⟨e2, hem, ?_⟩
        rw [costOf_cons he hpb]
        linarith
      · have hcan := hb.unclosedInHeap b hbc gb0 hgb
        refine ⟨(gb0 + h b, gb0, b), hcan, ?_⟩
        have htel := h_telescope hcons hpb
        rw [costOf_cons he hpb]
        show gb0 + h b ≤ gu + (w + costOf m p2) + h c
        linarith

/-- Any walk from the origin to an unclosed target is bounded by a heap
entry's f-value. -/
theorem cover {m : TMap} {h : Coord → ℚ} {origin : Coord}
    (hcons : ConsistentH m h) {st : AState} (hb : ABase m h origin st)
    (hrel : RelaxedClosed m st) {t : Coord} {p : List Coord}
    (hp : IsPath m origin p t) (ht : t ∉ st.closed) :
    ∃ e ∈ st.heap, e.1 ≤ costOf m p + h t := by
  obtain ⟨e, hem, hle⟩ := frontier_path hcons hb hrel hp hb.originClosed ht 0 hb.gOrigin
  exact ⟨e, hem, by linarith⟩

/-- When the popped minimum's node is unclosed, its g-value is the current
`g_score` of the node and is optimal among all walks from the origin. -/
theorem pop_exact {m : TMap} {h : Coord → ℚ} {origin : Coord}
    (hcons : ConsistentH m h) {st : AState} (hb : ABase m h origin st)
    (hrel : RelaxedClosed m st) {e : HeapEntry} {rest : List HeapEntry}
    (hheap : st.heap = e :: rest)
    (hnc : (extractMin e rest).1.2.2 ∉ st.closed) :
    assocFind st.gs (extractMin e rest).1.2.2 = some (extractMin e rest).1.2.1 ∧
    (∀ p, IsPath m origin p (extractMin e rest).1.2.2 →
      (extractMin e rest).1.2.1 ≤ costOf m p) := by
  have hcurmem : (extractMin e rest).1 ∈ st.heap := by
    rw [hheap]
    exact extractMin_mem rest e
  obtain ⟨hf, g0, hg0, hle0⟩ := hb.heapEntries _ hcurmem
  have hg0eq : g0 = (extractMin e rest).1.2.1 := by
    by_contra hne
    have hlt : g0 < (extractMin e rest).1.2.1 := lt_of_le_of_ne hle0 hne
    have hcanon := hb.unclosedInHeap _ hnc g0 hg0
    have hmin := extractMin_le_f rest e (g0 + h (extractMin e rest).1.2.2, g0,
      (extractMin e rest).1.2.2) (by rw [← hheap]; exact hcanon)
    rw [hf] at hmin
    simp only [] at hmin
    linarith
  constructor
  · rw [← hg0eq]
    exact hg0
  · intro p hp
    obtain ⟨e2, he2, hle2⟩ := cover hcons hb hrel hp hnc
    have hmin := extractMin_le_f rest e e2 (by rw [← hheap]; exact he2)
    rw [hf] at hmin
    linarith

/-- Skipping a stale entry of an already-closed node preserves the invariant. -/
theorem skip_step {m : TMap} {h : Coord → ℚ} {origin : Coord} {st : AState}
    (hb : ABase m h origin st) {e : HeapEntry} {rest : List HeapEntry}
    (hheap : st.heap = e :: rest)
    (hc : (extractMin e rest).1.2.2 ∈ st.closed) :
    ABase m h origin ⟨(extractMin e rest).2, st.gs, st.cf, st.closed⟩ := by
  have hperm : st.heap.Perm ((extractMin e rest).1 :: (extractMin e rest).2) := by
    rw [hheap]
    exact extractMin_perm rest e
  have hsub : ∀ a ∈ (extractMin e rest).2, a ∈ st.heap :=
    fun a ha => hperm.symm.subset (List.mem_cons_of_mem _ ha)
  refine ⟨hb.originClosed, hb.gOrigin, ?_, hb.sound, hb.parentsClosed, hb.closedExact,
    ?_, ?_, hb.closedNodup, hb.closedU⟩
  · intro e2 he2
    exact hb.heapEntries e2 (hsub e2 he2)
  · intro v hv gv hfind
    have hmem := hb.unclosedInHeap v hv gv hfind
    refine mem_rest_of_ne hperm hmem ?_
    intro heq
    apply hv
    rw [show v = (extractMin e rest).1.2.2 from by rw [← heq]]
    exact hc
  · intro e2 he2
    exact hb.heapU e2 (hsub e2 he2)

/-- Closing the popped node preserves the invariant; its `g_score` becomes
provably optimal. -/
theorem close_step {m : TMap} {h : Coord → ℚ} {origin : Coord} {st : AState}
    (hcons : ConsistentH m h) (hb : ABase m h origin st) (hrel : RelaxedClosed m st)
    {e : HeapEntry} {rest : List HeapEntry} (hheap : st.heap = e :: rest)
    (hnc : (extractMin e rest).1.2.2 ∉ st.closed) :
    ABase m h origin ⟨(extractMin e rest).2, st.gs, st.cf,
      (extractMin e rest).1.2.2 :: st.closed⟩ := by
  obtain ⟨hgcur, hopt⟩ := pop_exact hcons hb hrel hheap hnc
  have hperm : st.heap.Perm ((extractMin e rest).1 :: (extractMin e rest).2) := by
    rw [hheap]
    exact extractMin_perm rest e
  have hsub : ∀ a ∈ (extractMin e rest).2, a ∈ st.heap :=
    fun a ha => hperm.symm.subset (List.mem_cons_of_mem _ ha)
  have hcurmem : (extractMin e rest).1 ∈ st.heap := by
    rw [hheap]
    exact extractMin_mem rest e
  refine ⟨List.mem_cons_of_mem _ hb.originClosed, hb.gOrigin, ?_, ?_, ?_, ?_, ?_, ?_, ?_, ?_⟩
  · intro e2 he2
    exact hb.heapEntries e2 (hsub e2 he2)
  · intro v g hfind
    obtain ⟨p, h1, h2, h3, h4, h5, h6⟩ := hb.sound v g hfind
    exact ⟨p, h1, h2, h3, fun x hx => List.mem_cons_of_mem _ (h4 hx), h5, h6⟩
  · intro v u hfind
    exact List.mem_cons_of_mem _ (hb.parentsClosed v u hfind)
  · intro v hv
    rcases List.mem_cons.mp hv with rfl | hold
    · exact ⟨(extractMin e rest).1.2.1, hgcur, hopt⟩
    · obtain ⟨g, hg, hmin⟩ := hb.closedExact v hold
      exact ⟨g, hg, hmin⟩
  · intro v hv gv hfind
    have hvold : v ∉ st.closed := fun hmem => hv (List.mem_cons_of_mem _ hmem)
    have hvne : v ≠ (extractMin e rest).1.2.2 := fun heq => hv (heq ▸ List.mem_cons_self _ _)
    have hmem := hb.unclosedInHeap v hvold gv hfind
    refine mem_rest_of_ne hperm hmem ?_
    intro heq
    apply hvne
    rw [← heq]
  · intro e2 he2
    exact hb.heapU e2 (hsub e2 he2)
  · exact List.nodup_cons.mpr ⟨hnc, hb.closedNodup⟩
  · intro x hx
    rcases List.mem_cons.mp hx with rfl | hold
    · exact hb.heapU _ hcurmem
    · exact hb.closedU hold

/-- Remaining work: heap entries plus out-degrees of unclosed nodes. -/
def workPhi (m : TMap) (origin : Coord) (st : AState) : ℕ :=
  st.heap.length + degSum m ((nodeUniv m origin).filter (fun u => u ∉ st.closed))

theorem degSum_close {m : TMap} {v : Coord} {C : List Coord} (hvc : v ∉ C) :
    ∀ {us : List Coord}, us.Nodup → v ∈ us →
      degSum m (us.filter (fun u => u ∉ (v :: C))) + (nbrs m v).length =
        degSum m (us.filter (fun u => u ∉ C)) := by
  intro us
  induction us with
  | nil =>
      intro _ hv
      simp at hv
  | cons a rest ih =>
      intro hnodup hv
      obtain ⟨hna, hnrest⟩ := List.nodup_cons.mp hnodup
      by_cases hav : a = v
      · subst hav
        have hvrest : a ∉ rest := hna
        have hfeq : rest.filter (fun u => u ∉ (a :: C)) = rest.filter (fun u => u ∉ C) := by
          apply List.filter_congr
          intro x hx
          have hxa : x ≠ a := fun heq => hvrest (heq ▸ hx)
          simp [List.mem_cons, hxa]
        rw [show (a :: rest).filter (fun u => u ∉ (a :: C)) =
            rest.filter (fun u => u ∉ (a :: C)) from by
          rw [List.filter_cons]
          simp]
        rw [show (a :: rest).filter (fun u => u ∉ C) =
            a :: rest.filter (fun u => u ∉ C) from by
          rw [List.filter_cons]
          simp [hvc]]
        rw [hfeq]
        unfold degSum
        simp only [List.map_cons, List.sum_cons]
        omega
      · have hvrest : v ∈ rest := by
          rcases List.mem_cons.mp hv with heq | hm
          · exact absurd heq.symm hav
          · exact hm
        by_cases hac : a ∈ C
        · have h1 : (a :: rest).filter (fun u => u ∉ (v :: C)) =
              rest.filter (fun u => u ∉ (v :: C)) := by
            rw [List.filter_cons]
            simp [List.mem_cons, hac]
          have h2 : (a :: rest).filter (fun u => u ∉ C) =
              rest.filter (fun u => u ∉ C) := by
            rw [List.filter_cons]
            simp [hac]
          rw [h1, h2]
          exact ih hnrest hvrest
        · have h1 : (a :: rest).filter (fun u => u ∉ (v :: C)) =
              a :: rest.filter (fun u => u ∉ (v :: C)) := by
            rw [List.filter_cons]
            simp [List.mem_cons, hac, hav]
          have h2 : (a :: rest).filter (fun u => u ∉ C) =
              a :: rest.filter (fun u => u ∉ C) := by
            rw [List.filter_cons]
            simp [hac]
          rw [h1, h2]
          have hih := ih hnrest hvrest
          unfold degSum at hih ⊢
          simp only [List.map_cons, List.sum_cons]
          omega

theorem nodeUniv_nodup (m : TMap) (origin : Coord) : (nodeUniv m origin).Nodup := by
  unfold nodeUniv
  exact List.nodup_dedup _

theorem astarLoop_nil (m : TMap) (h : Coord → ℚ) (dest : Coord) (fuel : ℕ)
    (st : AState) (hheap : st.heap = []) :
    astarLoop m h dest (fuel + 1) st = some st := by
  simp only [astarLoop]
  rw [hheap]

theorem astarLoop_cons (m : TMap) (h : Coord → ℚ) (dest : Coord) (fuel : ℕ)
    (st : AState) {e : HeapEntry} {rest : List HeapEntry} (hheap : st.heap = e :: rest) :
    astarLoop m h dest (fuel + 1) st =
      (if (extractMin e rest).1.2.2 ∈ st.closed then
        astarLoop m h dest fuel ⟨(extractMin e rest).2, st.gs, st.cf, st.closed⟩
      else if (extractMin e rest).1.2.2 = dest then
        some ⟨(extractMin e rest).2, st.gs, st.cf, (extractMin e rest).1.2.2 :: st.closed⟩
      else
        astarLoop m h dest fuel (relaxAll h (extractMin e rest).1.2.1
          (extractMin e rest).1.2.2
          ⟨(extractMin e rest).2, st.gs, st.cf, (extractMin e rest).1.2.2 :: st.closed⟩
          (nbrs m (extractMin e rest).1.2.2))) := by
  simp only [astarLoop]
  rw [hheap]

/-- The main run of the search: with sufficient fuel it returns a state still
satisfying the invariant in which either the destination is closed (break) or
the open heap is exhausted. -/
theorem astar_run {m : TMap} {h : Coord → ℚ} {origin dest : Coord}
    (wf : WFMap m) (hpos : PosWeights m) (hcons : ConsistentH m h) :
    ∀ (fuel : ℕ) (st : AState), ABase m h origin st → RelaxedClosed m st →
      dest ∉ st.closed → workPhi m origin st < fuel →
      ∃ st2, astarLoop m h dest fuel st = some st2 ∧ ABase m h origin st2 ∧
        (dest ∈ st2.closed ∨ (st2.heap = [] ∧ RelaxedClosed m st2)) := by
  intro fuel
  induction fuel with
  | zero =>
      intro st _ _ _ hphi
      exact absurd hphi (Nat.not_lt_zero _)
  | succ fuel ih =>
      intro st hb hrel hdnc hphi
      cases hheap : st.heap with
      | nil =>
          exact ⟨st, astarLoop_nil m h dest fuel st hheap, hb, Or.inr ⟨hheap, hrel⟩⟩
      | cons e rest =>
          rw [astarLoop_cons m h dest fuel st hheap]
          by_cases hc : (extractMin e rest).1.2.2 ∈ st.closed
          · rw [if_pos hc]
            have hb2 := skip_step hb hheap hc
            have hrel2 : RelaxedClosed m
                ⟨(extractMin e rest).2, st.gs, st.cf, st.closed⟩ := hrel
            have hdnc2 : dest ∉
                (⟨(extractMin e rest).2, st.gs, st.cf, st.closed⟩ : AState).closed := hdnc
            have hphi2 : workPhi m origin
                ⟨(extractMin e rest).2, st.gs, st.cf, st.closed⟩ < fuel := by
              have hlen := extractMin_length rest e
              unfold workPhi at hphi ⊢
              rw [hheap] at hphi
              simp only [List.length_cons] at hphi
              show ((extractMin e rest).2).length +
                degSum m ((nodeUniv m origin).filter (fun u => u ∉ st.closed)) < fuel
              omega
            exact ih _ hb2 hrel2 hdnc2 hphi2
          · rw [if_neg hc]
            have hpop := pop_exact hcons hb hrel hheap hc
            have hb3 := close_step hcons hb hrel hheap hc
            by_cases hd : (extractMin e rest).1.2.2 = dest
            · rw [if_pos hd]
              refine ⟨_, rfl, hb3, Or.inl ?_⟩
              show dest ∈ (extractMin e rest).1.2.2 :: st.closed
              rw [← hd]
              exact List.mem_cons_self _ _
            · rw [if_neg hd]
              have hcurmem : (extractMin e rest).1 ∈ st.heap := by
                rw [hheap]
                exact extractMin_mem rest e
              have huniv : (extractMin e rest).1.2.2 ∈ nodeUniv m origin :=
                hb.heapU _ hcurmem
              have hcur3 : (extractMin e rest).1.2.2 ∈
                  (⟨(extractMin e rest).2, st.gs, st.cf,
                    (extractMin e rest).1.2.2 :: st.closed⟩ : AState).closed :=
                List.mem_cons_self _ _
              have hgcur3 : assocFind (⟨(extractMin e rest).2, st.gs, st.cf,
                  (extractMin e rest).1.2.2 :: st.closed⟩ : AState).gs
                  (extractMin e rest).1.2.2 = some (extractMin e rest).1.2.1 := hpop.1
              obtain ⟨hb4, hcl4, hstable4, hmono4, hrel4, hheapsub4, hlen4⟩ :=
                relaxAll_preserves wf hpos (nbrs m (extractMin e rest).1.2.2)
                  ⟨(extractMin e rest).2, st.gs, st.cf,
                    (extractMin e rest).1.2.2 :: st.closed⟩
                  hb3 hcur3 hgcur3 (fun nb hnb => hnb)
              have hcl4b : (relaxAll h (extractMin e rest).1.2.1 (extractMin e rest).1.2.2
                  ⟨(extractMin e rest).2, st.gs, st.cf,
                    (extractMin e rest).1.2.2 :: st.closed⟩
                  (nbrs m (extractMin e rest).1.2.2)).closed =
                  (extractMin e rest).1.2.2 :: st.closed := hcl4
              have hrelC : RelaxedClosed m (relaxAll h (extractMin e rest).1.2.1
                  (extractMin e rest).1.2.2
                  ⟨(extractMin e rest).2, st.gs, st.cf,
                    (extractMin e rest).1.2.2 :: st.closed⟩
                  (nbrs m (extractMin e rest).1.2.2)) := by
                intro u hu
                rw [hcl4b] at hu
                rcases List.mem_cons.mp hu with rfl | hold
                · exact hrel4
                · intro gu hgu nb hnb
                  obtain ⟨gu0, hgu0, _⟩ := hb3.closedExact u (List.mem_cons_of_mem _ hold)
                  have hst4u := hstable4 u gu0 (List.mem_cons_of_mem _ hold) hgu0
                  have hgueq : gu = gu0 := Option.some.inj (hgu.symm.trans hst4u)
                  have hgu0st : assocFind st.gs u = some gu0 := hgu0
                  obtain ⟨gv, hgv, hle⟩ := hrel u hold gu0 hgu0st nb hnb
                  have hgvst3 : assocFind (⟨(extractMin e rest).2, st.gs, st.cf,
                      (extractMin e rest).1.2.2 :: st.closed⟩ : AState).gs nb.1 =
                      some gv := hgv
                  obtain ⟨gv2, hgv2, hle2⟩ := hmono4 nb.1 gv hgvst3
                  refine ⟨gv2, hgv2, ?_⟩
                  rw [hgueq]
                  linarith
              have hdnc4 : dest ∉ (relaxAll h (extractMin e rest).1.2.1
                  (extractMin e rest).1.2.2
                  ⟨(extractMin e rest).2, st.gs, st.cf,
                    (extractMin e rest).1.2.2 :: st.closed⟩
                  (nbrs m (extractMin e rest).1.2.2)).closed := by
                rw [hcl4b]
                intro hmem
                rcases List.mem_cons.mp hmem with heq | hold
                · exact hd heq.symm
                · exact hdnc hold
              have hphi4 : workPhi m origin (relaxAll h (extractMin e rest).1.2.1
                  (extractMin e rest).1.2.2
                  ⟨(extractMin e rest).2, st.gs, st.cf,
                    (extractMin e rest).1.2.2 :: st.closed⟩
                  (nbrs m (extractMin e rest).1.2.2)) < fuel := by
                have hA := degSum_close (m := m) (v := (extractMin e rest).1.2.2)
                  (C := st.closed) hc (nodeUniv_nodup m origin) huniv
                have hlen2 := extractMin_length rest e
                have hlen3 : ((⟨(extractMin e rest).2, st.gs, st.cf,
                    (extractMin e rest).1.2.2 :: st.closed⟩ : AState).heap).length =
                    rest.length := by
                  show ((extractMin e rest).2).length = rest.length
                  exact hlen2
                unfold workPhi at hphi ⊢
                rw [hheap] at hphi
                simp only [List.length_cons] at hphi
                rw [hcl4b]
                have hlen5 := hlen4
                rw [hlen3] at hlen5
                omega
              exact ih _ hb4 hrelC hdnc4 hphi4

theorem key_mem_of_find_isSome [DecidableEq κ] {l : List (κ × β)} {k : κ}
    (h : (assocFind l k).isSome = true) : k ∈ l.map Prod.fst := by
  obtain ⟨v, hv⟩ := Option.isSome_iff_exists.mp h
  exact List.mem_map.mpr ⟨(k, v), assocFind_mem hv, rfl⟩

theorem mapFind_isSome_of_nbrs_ne {m : TMap} {a : Coord} (h : nbrs m a ≠ []) :
    (mapFind m a).isSome = true := by
  unfold nbrs at h
  cases hf : mapFind m a with
  | none =>
      rw [hf] at h
      simp at h
  | some l => rfl

/-- Invariant of the state reached by closing the start node, before its
edges are relaxed. -/
theorem initial_base {m : TMap} {h : Coord → ℚ} {o : Coord} (hpos : PosWeights m) :
    ABase m h o ⟨[], [(o, (0 : ℚ))], [], [o]⟩ := by
  refine ⟨List.mem_singleton_self _, by simp [assocFind], ?_, ?_, ?_, ?_, ?_, ?_,
    List.nodup_singleton _, ?_⟩
  · intro e he
    simp at he
  · intro v g hf
    by_cases hvo : o = v
    · subst hvo
      simp [assocFind] at hf
      refine ⟨[o], IsPath.single o, by rw [costOf_single, hf], List.nodup_singleton _,
        by simp, fun x hx => Or.inl (List.mem_singleton.mp hx), ?_⟩
      intro fr hfr
      simp at hfr
      cases fr with
      | zero => omega
      | succ fr2 =>
          unfold recon
          rw [if_pos rfl]
    · simp [assocFind, hvo] at hf
  · intro v u hf
    simp [assocFind] at hf
  · intro v hv
    rw [List.mem_singleton.mp hv]
    exact ⟨0, by simp [assocFind], fun p hp => by
      have := costOf_nonneg hpos hp
      linarith⟩
  · intro v hv gv hf
    by_cases hvo : o = v
    · exact absurd (hvo ▸ List.mem_singleton_self o) hv
    · simp [assocFind, hvo] at hf
  · intro e he
    simp at he
  · intro x hx
    rw [List.mem_singleton.mp hx]
    exact origin_mem_nodeUniv m o

/-- Claim C4.  On every well-formed finite map with positive recorded edge
costs and a heuristic consistent over its edges (which the source's Euclidean
`math.hypot` heuristic is whenever each recorded distance is at least the
straight-line distance, by the triangle inequality), `_planPath` returns a
path from `o` to `d` whose total recorded cost is minimal among all walks
from `o` to `d`, provided some walk exists. -/
theorem planPath_optimal (m : TMap) (h : Coord → ℚ) (o d : Coord)
    (wf : WFMap m) (hpos : PosWeights m) (hcons : ConsistentH m h)
    (hreach : ∃ p, IsPath m o p d) :
    ∃ p, planPath m h o d = p ∧ IsPath m o p d ∧
      ∀ q, IsPath m o q d → costOf m p ≤ costOf m q := by
  by_cases hod : o = d
  · subst hod
    refine ⟨[o], by unfold planPath; rw [if_pos rfl], IsPath.single o, fun q hq => ?_⟩
    rw [costOf_single]
    exact costOf_nonneg hpos hq
  · obtain ⟨pr, hpr⟩ := hreach
    have ho : (mapFind m o).isSome = true := by
      obtain ⟨b, w, he⟩ := hpr.start_edge hod
      obtain ⟨nb, hnbm, _, _⟩ := edgeTo_exists he
      exact mapFind_isSome_of_nbrs_ne (List.ne_nil_of_mem hnbm)
    have hd : (mapFind m d).isSome = true := by
      rcases hpr.end_edge with heq | ⟨u, w, he⟩
      · exact absurd heq hod
      · obtain ⟨nb, hnbm, hnb1, _⟩ := edgeTo_exists he
        rcases nbr_entry_mem hnbm with ⟨l, hml, hnl⟩
        have := wf.closedMap (u, l) hml nb hnl
        rw [hnb1] at this
        exact this
    have hb0 : ABase m h o (⟨[], [(o, (0 : ℚ))], [], [o]⟩ : AState) := initial_base hpos
    have ho0 : o ∈ (⟨[], [(o, (0 : ℚ))], [], [o]⟩ : AState).closed :=
      List.mem_singleton_self _
    have hg0 : assocFind (⟨[], [(o, (0 : ℚ))], [], [o]⟩ : AState).gs o = some 0 := by
      simp [assocFind]
    obtain ⟨hb1, hcl1, hstable1, hmono1, hrel1, hsub1, hlen1⟩ :=
      relaxAll_preserves wf hpos (nbrs m o) ⟨[], [(o, (0 : ℚ))], [], [o]⟩
        hb0 ho0 hg0 (fun nb hnb => hnb)
    have hcl1b : (relaxAll h 0 o ⟨[], [(o, (0 : ℚ))], [], [o]⟩ (nbrs m o)).closed =
        [o] := hcl1
    have hrelC1 : RelaxedClosed m (relaxAll h 0 o ⟨[], [(o, (0 : ℚ))], [], [o]⟩
        (nbrs m o)) := by
      intro u hu
      rw [hcl1b] at hu
      rw [List.mem_singleton.mp hu]
      exact hrel1
    have hdnc1 : d ∉ (relaxAll h 0 o ⟨[], [(o, (0 : ℚ))], [], [o]⟩ (nbrs m o)).closed := by
      rw [hcl1b]
      intro hmem
      exact hod (List.mem_singleton.mp hmem).symm
    have hphi1 : workPhi m o (relaxAll h 0 o ⟨[], [(o, (0 : ℚ))], [], [o]⟩ (nbrs m o)) <
        (nodeUniv m o).length + degSum m (nodeUniv m o) := by
      have hA := degSum_close (m := m) (v := o) (C := []) (by simp)
        (nodeUniv_nodup m o) (origin_mem_nodeUniv m o)
      have hfilter : (nodeUniv m o).filter (fun u => u ∉ ([] : List Coord)) =
          nodeUniv m o := by
        simp
      rw [hfilter] at hA
      have hlen1b : (relaxAll h 0 o ⟨[], [(o, (0 : ℚ))], [], [o]⟩
          (nbrs m o)).heap.length ≤ (nbrs m o).length := by
        have := hlen1
        simpa using this
      have hUpos : 0 < (nodeUniv m o).length :=
        List.length_pos.mpr (List.ne_nil_of_mem (origin_mem_nodeUniv m o))
      unfold workPhi
      rw [hcl1b]
      omega
    obtain ⟨st2, hrun, hb2, hfin⟩ := astar_run wf hpos hcons
      ((nodeUniv m o).length + degSum m (nodeUniv m o))
      (relaxAll h 0 o ⟨[], [(o, (0 : ℚ))], [], [o]⟩ (nbrs m o))
      hb1 hrelC1 hdnc1 hphi1
    have hdc : d ∈ st2.closed := by
      rcases hfin with hin | ⟨hempty, hrel2⟩
      · exact hin
      · by_contra hnot
        obtain ⟨e2, he2, _⟩ := cover hcons hb2 hrel2 hpr hnot
        rw [hempty] at he2
        simp at he2
    obtain ⟨g, hgdest, hmin⟩ := hb2.closedExact d hdc
    obtain ⟨p, hpath, hcost, hnodup, hdrop, hcf, hrecon⟩ := hb2.sound d g hgdest
    have hdo : d ≠ o := fun heq => hod heq.symm
    have hdp : d ∈ p := by
      rcases hpath.concat_shape with ⟨q, hq, _⟩
      rw [hq]
      simp
    have hcfd : (assocFind st2.cf d).isSome = true := by
      rcases hcf d hdp with heq | hs
      · exact absurd heq hdo
      · exact hs
    have hplen : p.length ≤ st2.cf.length + 1 := by
      obtain ⟨p2, rfl⟩ := hpath.head_shape
      have hop2 : o ∉ p2 := (List.nodup_cons.mp hnodup).1
      have hsubk : p2 ⊆ st2.cf.map Prod.fst := by
        intro x hx
        have hxp : x ∈ o :: p2 := List.mem_cons_of_mem _ hx
        rcases hcf x hxp with heq | hs
        · exact absurd (heq ▸ hx) hop2
        · exact key_mem_of_find_isSome hs
      have := nodup_subset_length (List.nodup_cons.mp hnodup).2 hsubk
      rw [List.length_map] at this
      simp only [List.length_cons]
      omega
    have hrecon2 : recon st2.cf o (st2.cf.length + 1) d = some p := hrecon _ hplen
    have hfuel : fuelFor m o = ((nodeUniv m o).length + degSum m (nodeUniv m o)) + 1 := by
      unfold fuelFor
      omega
    have hloop0 : astarLoop m h d (fuelFor m o)
        ⟨[(0, 0, o)], [(o, 0)], [], []⟩ = some st2 := by
      rw [hfuel]
      rw [astarLoop_cons m h d _ ⟨[(0, 0, o)], [(o, 0)], [], []⟩ rfl]
      rw [if_neg (by simp), if_neg (by simpa using hod)]
      exact hrun
    have hguard : ¬((mapFind m o).isNone = true ∨ (mapFind m d).isNone = true) := by
      rintro (h1 | h1)
      · rw [Option.isNone_iff_eq_none] at h1
        rw [h1] at ho
        simp at ho
      · rw [Option.isNone_iff_eq_none] at h1
        rw [h1] at hd
        simp at hd
    refine ⟨p, ?_, hpath, fun q hq => ?_⟩
    · unfold planPath
      rw [if_neg hod, if_neg hguard]
      show (match astarLoop m h d (fuelFor m o) ⟨[(0, 0, o)], [(o, 0)], [], []⟩ with
        | none => []
        | some st =>
            match assocFind st.cf d with
            | none => []
            | some _ => (recon st.cf o (st.cf.length + 1) d).getD []) = p
      rw [hloop0]
      obtain ⟨u, hu⟩ := Option.isSome_iff_exists.mp hcfd
      show (match assocFind st2.cf d with
        | none => []
        | some _ => (recon st2.cf o (st2.cf.length + 1) d).getD []) = p
      rw [hu, hrecon2]
      rfl
    · rw [hcost]
      exact hmin q hq

/-- Concrete three-node map for exercising the planner theorems: a direct
edge `(0,0) → (2,0)` of cost `3` and a two-step route through `(1,0)` of
total cost `2`. -/
def w4Map : TMap :=
  [((0, 0), [((1, 0), 1, some 1), ((2, 0), 1, some 3)]),
   ((1, 0), [((2, 0), 1, some 1)]),
   ((2, 0), [])]

/-- Witness for the planner-optimality theorem on `w4Map` with the zero
heuristic (trivially consistent), origin `(0,0)` and destination `(2,0)`,
reachable via the direct cost-3 edge. -/
theorem planPath_optimal_witness :
    ∃ p, planPath w4Map (fun _ : Coord => (0 : ℚ)) (0, 0) (2, 0) = p ∧
      IsPath w4Map (0, 0) p (2, 0) ∧
      ∀ q, IsPath w4Map (0, 0) q (2, 0) →
        costOf w4Map p ≤ costOf w4Map q :=
  planPath_optimal w4Map (fun _ => 0) (0, 0) (2, 0)
    ⟨by decide, by decide, by decide⟩
    (by
      intro e he nb hnb
      simp only [w4Map, List.mem_cons, List.not_mem_nil, or_false] at he
      rcases he with rfl | rfl | rfl
      · simp only [List.mem_cons, List.not_mem_nil, or_false] at hnb
        rcases hnb with rfl | rfl <;> norm_num [stepCost]
      · simp only [List.mem_cons, List.not_mem_nil, or_false] at hnb
        subst hnb
        norm_num [stepCost]
      · simp at hnb)
    (by
      intro e he nb hnb
      simp only [w4Map, List.mem_cons, List.not_mem_nil, or_false] at he
      rcases he with rfl | rfl | rfl
      · simp only [List.mem_cons, List.not_mem_nil, or_false] at hnb
        rcases hnb with rfl | rfl <;> norm_num [stepCost]
      · simp only [List.mem_cons, List.not_mem_nil, or_false] at hnb
        subst hnb
        norm_num [stepCost]
      · simp at hnb)
    ⟨[(0, 0), (2, 0)], IsPath.cons (by with_unfolding_all rfl) (IsPath.single _)⟩

/-! Reachability soundness of the search, needing no well-formedness
hypotheses: every node recorded anywhere in a search state descended from the
initial state is reachable from the origin, so an unreachable destination can
never acquire a `came_from` entry. -/

theorem findSome_isSome_of_target {b : Coord} :
    ∀ {l : List NbrEntry}, (∃ nb ∈ l, nb.1 = b) →
      ∃ w, l.findSome? (fun e => if e.1 = b then some (stepCost e.2.2) else none) =
        some w := by
  intro l
  induction l with
  | nil =>
      rintro ⟨nb, hnb, _⟩
      simp at hnb
  | cons x xs ih =>
      rintro ⟨nb, hnb, hb⟩
      rw [List.findSome?_cons]
      by_cases hx : x.1 = b
      · rw [if_pos hx]
        exact ⟨stepCost x.2.2, rfl⟩
      · rw [if_neg hx]
        rcases List.mem_cons.mp hnb with rfl | hnb2
        · exact absurd hb hx
        · exact ih ⟨nb, hnb2, hb⟩

theorem edgeTo_isSome_of_mem {m : TMap} {a : Coord} {nb : NbrEntry}
    (hm : nb ∈ nbrs m a) : ∃ w, edgeTo m a nb.1 = some w :=
  findSome_isSome_of_target ⟨nb, hm, rfl⟩

/-- Every node in the heap, the `g_score` table or the `came_from` table is
reachable from the origin. -/
def Reach (m : TMap) (origin : Coord) (st : AState) : Prop :=
  (∀ e ∈ st.heap, ∃ p, IsPath m origin p e.2.2) ∧
  (∀ v g, assocFind st.gs v = some g → ∃ p, IsPath m origin p v) ∧
  (∀ v u, assocFind st.cf v = some u → ∃ p, IsPath m origin p v)

theorem reach_relaxNbr {m : TMap} {origin : Coord} {h : Coord → ℚ} {gcurr : ℚ}
    {u : Coord} {st : AState} {nb : NbrEntry} (hr : Reach m origin st)
    (hu : ∃ p, IsPath m origin p u) (hnb : nb ∈ nbrs m u) :
    Reach m origin (relaxNbr h gcurr u st nb) := by
  obtain ⟨w, hw⟩ := edgeTo_isSome_of_mem hnb
  obtain ⟨pu, hpu⟩ := hu
  have hnbr : ∃ p, IsPath m origin p nb.1 := ⟨pu ++ [nb.1], (hpu.append_edge hw).1⟩
  have hupd : Reach m origin
      { heap := (gcurr + stepCost nb.2.2 + h nb.1, gcurr + stepCost nb.2.2, nb.1) :: st.heap
        gs := assocSet st.gs nb.1 (gcurr + stepCost nb.2.2)
        cf := assocSet st.cf nb.1 u
        closed := st.closed } := by
    refine ⟨?_, ?_, ?_⟩
    · intro e he
      rcases List.mem_cons.mp he with rfl | he2
      · exact hnbr
      · exact hr.1 e he2
    · intro v g hf
      by_cases hv : v = nb.1
      · exact hv ▸ hnbr
      · rw [assocFind_assocSet_ne _ _ _ _ (fun heq => hv heq.symm)] at hf
        exact hr.2.1 v g hf
    · intro v u2 hf
      by_cases hv : v = nb.1
      · exact hv ▸ hnbr
      · rw [assocFind_assocSet_ne _ _ _ _ (fun heq => hv heq.symm)] at hf
        exact hr.2.2 v u2 hf
  cases hfind : assocFind st.gs nb.1 with
  | none =>
      simp only [relaxNbr, hfind, if_true]
      exact hupd
  | some g0 =>
      by_cases hlt : gcurr + stepCost nb.2.2 < g0
      · have hdec : decide (gcurr + stepCost nb.2.2 < g0) = true := decide_eq_true hlt
        simp only [relaxNbr, hfind, hdec, if_true]
        exact hupd
      · have hdec : decide (gcurr + stepCost nb.2.2 < g0) = false := decide_eq_false hlt
        simp only [relaxNbr, hfind, hdec, if_false]
        exact hr

theorem reach_relaxAll {m : TMap} {origin : Coord} {h : Coord → ℚ} {gcurr : ℚ}
    {u : Coord} :
    ∀ (es : List NbrEntry) (st : AState), Reach m origin st →
      (∃ p, IsPath m origin p u) → (∀ nb ∈ es, nb ∈ nbrs m u) →
      Reach m origin (relaxAll h gcurr u st es) := by
  intro es
  induction es with
  | nil =>
      intro st hr _ _
      exact hr
  | cons x xs ih =>
      intro st hr hu hsub
      show Reach m origin (relaxAll h gcurr u (relaxNbr h gcurr u st x) xs)
      exact ih _ (reach_relaxNbr hr hu (hsub x (List.mem_cons_self _ _))) hu
        (fun nb hnb => hsub nb (List.mem_cons_of_mem _ hnb))

theorem reach_astarLoop {m : TMap} {h : Coord → ℚ} {origin dest : Coord} :
    ∀ (fuel : ℕ) (st st2 : AState), Reach m origin st →
      astarLoop m h dest fuel st = some st2 → Reach m origin st2 := by
  intro fuel
  induction fuel with
  | zero =>
      intro st st2 _ hrun
      simp [astarLoop] at hrun
  | succ fuel ih =>
      intro st st2 hr hrun
      cases hheap : st.heap with
      | nil =>
          rw [astarLoop_nil m h dest fuel st hheap] at hrun
          exact (Option.some.inj hrun) ▸ hr
      | cons e rest =>
          rw [astarLoop_cons m h dest fuel st hheap] at hrun
          have hcur : (extractMin e rest).1 ∈ st.heap := by
            rw [hheap]
            exact extractMin_mem rest e
          have hrest : ∀ a ∈ (extractMin e rest).2, a ∈ st.heap := by
            intro a ha
            rw [hheap]
            exact (extractMin_perm rest e).symm.subset (List.mem_cons_of_mem _ ha)
          by_cases hclosed : (extractMin e rest).1.2.2 ∈ st.closed
          · rw [if_pos hclosed] at hrun
            exact ih ⟨(extractMin e rest).2, st.gs, st.cf, st.closed⟩ st2
              ⟨fun a ha => hr.1 a (hrest a ha), hr.2.1, hr.2.2⟩ hrun
          · rw [if_neg hclosed] at hrun
            by_cases hdest : (extractMin e rest).1.2.2 = dest
            · rw [if_pos hdest] at hrun
              rw [← Option.some.inj hrun]
              exact ⟨fun a ha => hr.1 a (hrest a ha), hr.2.1, hr.2.2⟩
            · rw [if_neg hdest] at hrun
              have hcr : ∃ p, IsPath m origin p (extractMin e rest).1.2.2 :=
                hr.1 _ hcur
              exact ih _ _ (reach_relaxAll _
                ⟨(extractMin e rest).2, st.gs, st.cf,
                  (extractMin e rest).1.2.2 :: st.closed⟩
                ⟨fun a ha => hr.1 a (hrest a ha), hr.2.1, hr.2.2⟩ hcr
                (fun nb hnb => hnb)) hrun

/-- Claim C9.  `_planPath` returns the single-element path `[origin]` when
origin equals destination, and the empty list — it is a total function, never
an error — when either endpoint is absent from the map or no connecting path
exists. -/
theorem planPath_degenerate (m : TMap) (h : Coord → ℚ) (o d : Coord) :
    planPath m h o o = [o] ∧
    (o ≠ d → ((mapFind m o).isNone = true ∨ (mapFind m d).isNone = true) →
      planPath m h o d = []) ∧
    (o ≠ d → (¬∃ p, IsPath m o p d) → planPath m h o d = []) := by
  refine ⟨?_, ?_, ?_⟩
  · unfold planPath
    rw [if_pos rfl]
  · intro hod hmiss
    unfold planPath
    rw [if_neg hod, if_pos hmiss]
  · intro hod hnone
    by_cases hguard : (mapFind m o).isNone = true ∨ (mapFind m d).isNone = true
    · unfold planPath
      rw [if_neg hod, if_pos hguard]
    · unfold planPath
      rw [if_neg hod, if_neg hguard]
      show (match astarLoop m h d (fuelFor m o) ⟨[(0, 0, o)], [(o, 0)], [], []⟩ with
        | none => []
        | some st =>
            match assocFind st.cf d with
            | none => []
            | some _ => (recon st.cf o (st.cf.length + 1) d).getD []) = []
      have hr0 : Reach m o (⟨[(0, 0, o)], [(o, 0)], [], []⟩ : AState) := by
        refine ⟨?_, ?_, ?_⟩
        · intro e he
          rw [List.mem_singleton.mp he]
          exact ⟨[o], IsPath.single o⟩
        · intro v g hf
          by_cases hv : o = v
          · exact ⟨[o], hv ▸ IsPath.single o⟩
          · simp [assocFind, hv] at hf
        · intro v u hf
          simp [assocFind] at hf
      cases hrun : astarLoop m h d (fuelFor m o) ⟨[(0, 0, o)], [(o, 0)], [], []⟩ with
      | none => rfl
      | some st2 =>
          show (match assocFind st2.cf d with
            | none => []
            | some _ => (recon st2.cf o (st2.cf.length + 1) d).getD []) = []
          cases hcf : assocFind st2.cf d with
          | none => rfl
          | some u =>
              obtain ⟨p, hp⟩ :=
                (reach_astarLoop (fuelFor m o) _ st2 hr0 hrun).2.2 d u hcf
              exact absurd ⟨p, hp⟩ hnone

/-- Two-isolated-node map for the degenerate-planner witness: no edges at
all, so `(5,5)` is unreachable from `(0,0)`. -/
def w9Map : TMap := [((0, 0), []), ((5, 5), [])]

/-- Witness for the degenerate cases on `w9Map`: identical endpoints yield
the singleton path, an unreachable destination and a missing origin both
yield the empty path. -/
theorem planPath_degenerate_witness :
    planPath w9Map (fun _ : Coord => (0 : ℚ)) (0, 0) (0, 0) = [(0, 0)] ∧
    planPath w9Map (fun _ : Coord => (0 : ℚ)) (0, 0) (5, 5) = [] ∧
    planPath w9Map (fun _ : Coord => (0 : ℚ)) (7, 7) (5, 5) = [] := by
  have hval : ∀ v ∈ w9Map, v.2 = ([] : List NbrEntry) := by decide
  have hnb : ∀ u : Coord, nbrs w9Map u = [] := by
    intro u
    unfold nbrs
    cases hf : mapFind w9Map u with
    | none => rfl
    | some l =>
        have hmem : (u, l) ∈ w9Map := assocFind_mem hf
        have hl : l = [] := hval _ hmem
        simp [hl]
  have hnone : ¬∃ p, IsPath w9Map (0, 0) p (5, 5) := by
    rintro ⟨p, hp⟩
    rcases hp.end_edge with heq | ⟨u, w, hw⟩
    · exact absurd heq (by decide)
    · rw [edgeTo, hnb u] at hw
      simp at hw
  refine ⟨(planPath_degenerate w9Map (fun _ => 0) (0, 0) (0, 0)).1, ?_, ?_⟩
  · exact (planPath_degenerate w9Map (fun _ => 0) (0, 0) (5, 5)).2.2
      (by decide) hnone
  · exact (planPath_degenerate w9Map (fun _ => 0) (7, 7) (5, 5)).2.1
      (by decide) (Or.inl (by decide))

/-! ### The taxi's per-tick fare handling (`Taxi.clockTick`, taxi.py:173-217)

`FareInfo` (taxi.py:11-20) records destination, price, a ternary bid flag and
an allocation flag — notably it has no `max_wait` field of its own.  The
world interactions of a tick (`dropoffFare`, `pickupFare`, the clock) enter
as an explicit environment, and the taxi's `_planPath`/`_bidOnFare` calls as
function parameters (modelled concretely by `planPath` and `bidOnFare`
above). -/

structure FareInfo where
  destination : Coord
  price : ℚ
  bid : ℤ
  allocated : Bool
deriving DecidableEq, Repr

/-- Key of the taxi's `_availableFares` table: `(call_time, ox, oy)`. -/
abbrev OfferKey := ℤ × ℤ × ℤ

/-- The taxi attributes read or written by `clockTick`. -/
structure TaxiSt where
  loc : Coord
  path : List Coord
  passenger : Option Coord
  account : ℤ
  maxFareWait : ℤ
  onDuty : Bool
  offDutyTime : ℤ
  availableFares : List (OfferKey × FareInfo)
deriving Repr

/-- One tick's world interactions: the clock, whether `dropoffFare` succeeds,
and what `pickupFare` returns (the picked passenger's destination, `none` on
failure). -/
structure TickEnv where
  simTime : ℤ
  dropoffOk : Bool
  pickup : OfferKey → Option Coord

/-- Accumulator of the `for fare in self._availableFares.items()` loop: the
threaded path/passenger, the table with the in-place bid mutations, and
`faresToRemove`. -/
structure LoopAcc where
  path : List Coord
  passenger : Option Coord
  fares : List (OfferKey × FareInfo)
  toRemove : List OfferKey
deriving Repr

/-- One iteration of the fare loop (taxi.py:193-211). -/
def fareStep (env : TickEnv) (maxW : ℤ) (loc : Coord)
    (plan : Coord → Coord → List Coord) (bidf : ℤ → Coord → Coord → ℚ → Bool)
    (acc : LoopAcc) (e : OfferKey × FareInfo) : LoopAcc :=
  if acc.path = [] ∧ e.2.allocated = true ∧ acc.passenger = none then
    if loc = (e.1.2.1, e.1.2.2) then
      match env.pickup e.1 with
      | some pdest =>
          { acc with
              passenger := some pdest
              path := plan loc pdest
              fares := acc.fares ++ [e]
              toRemove := acc.toRemove ++ [e.1] }
      | none =>
          { acc with fares := acc.fares ++ [e], toRemove := acc.toRemove ++ [e.1] }
    else
      { acc with path := plan loc (e.1.2.1, e.1.2.2), fares := acc.fares ++ [e] }
  else if env.simTime - e.1.1 > maxW then
    { acc with fares := acc.fares ++ [e], toRemove := acc.toRemove ++ [e.1] }
  else if e.2.bid = 0 then
    if bidf e.1.1 (e.1.2.1, e.1.2.2) e.2.destination e.2.price then
      { acc with fares := acc.fares ++ [(e.1, { e.2 with bid := 1 })] }
    else
      { acc with fares := acc.fares ++ [(e.1, { e.2 with bid := -1 })] }
  else
    { acc with fares := acc.fares ++ [e] }

/-- The automatic off-duty check at the top of `clockTick` (taxi.py:174-178). -/
def offDutyCheck (env : TickEnv) (st : TaxiSt) : TaxiSt :=
  if st.account ≤ 0 ∧ st.passenger = none then
    { st with onDuty := false, offDutyTime := env.simTime }
  else st

/-- The drop-off handling of `clockTick` (taxi.py:180-189). -/
def dropoffCheck (env : TickEnv) (plan : Coord → Coord → List Coord)
    (st : TaxiSt) : TaxiSt :=
  if st.path = [] then
    match st.passenger with
    | some pdest =>
        if env.dropoffOk then { st with passenger := none }
        else if pdest ≠ st.loc then { st with path := plan st.loc pdest }
        else st
    | none => st
  else st

/-- The fare loop, the expiry deletions and the £1 per-minute cost
(taxi.py:192-217). -/
def farePhase (env : TickEnv) (plan : Coord → Coord → List Coord)
    (bidf : ℤ → Coord → Coord → ℚ → Bool) (st : TaxiSt) : TaxiSt :=
  let r := st.availableFares.foldl
    (fareStep env st.maxFareWait st.loc plan bidf)
    ⟨st.path, st.passenger, [], []⟩
  { st with
      path := r.path
      passenger := r.passenger
      availableFares := r.toRemove.foldl (fun t k2 => assocEraseAll t k2) r.fares
      account := st.account - 1 }

/-- `Taxi.clockTick` (taxi.py:173-217). -/
def clockTick (env : TickEnv) (plan : Coord → Coord → List Coord)
    (bidf : ℤ → Coord → Coord → ℚ → Bool) (st : TaxiSt) : TaxiSt :=
  farePhase env plan bidf (dropoffCheck env plan (offDutyCheck env st))

/-! Association-list facts used by the tick analysis. -/

theorem assocFind_eq_none_of_not_mem_keys [DecidableEq κ] :
    ∀ (l : List (κ × β)) (k : κ), k ∉ l.map Prod.fst → assocFind l k = none := by
  intro l
  induction l with
  | nil =>
      intro k _
      rfl
  | cons x xs ih =>
      intro k hk
      obtain ⟨k1, v1⟩ := x
      simp only [List.map_cons, List.mem_cons] at hk
      push_neg at hk
      simp only [assocFind]
      rw [if_neg (fun heq => hk.1 heq.symm)]
      exact ih k hk.2

theorem assocFind_append_right_ne [DecidableEq κ] {k : κ} :
    ∀ (l : List (κ × β)) (e : κ × β), e.1 ≠ k →
      assocFind (l ++ [e]) k = assocFind l k := by
  intro l e hne
  induction l with
  | nil =>
      obtain ⟨k1, v1⟩ := e
      simp only [List.nil_append, assocFind]
      rw [if_neg hne]
  | cons x xs ih =>
      obtain ⟨k1, v1⟩ := x
      simp only [List.cons_append, assocFind]
      by_cases h : k1 = k
      · rw [if_pos h, if_pos h]
      · rw [if_neg h, if_neg h]
        exact ih

theorem assocFind_append_right_self [DecidableEq κ] {k : κ} :
    ∀ (l : List (κ × β)) (v : β), assocFind l k = none →
      assocFind (l ++ [(k, v)]) k = some v := by
  intro l v
  induction l with
  | nil =>
      intro _
      simp [assocFind]
  | cons x xs ih =>
      obtain ⟨k1, v1⟩ := x
      intro hnone
      simp only [assocFind] at hnone
      simp only [List.cons_append, assocFind]
      by_cases h : k1 = k
      · rw [if_pos h] at hnone
        exact absurd hnone (by simp)
      · rw [if_neg h] at hnone
        rw [if_neg h]
        exact ih hnone

theorem assocFind_eraseAll_self [DecidableEq κ] {k : κ} :
    ∀ (l : List (κ × β)), assocFind (assocEraseAll l k) k = none := by
  intro l
  induction l with
  | nil => rfl
  | cons e rest ih =>
      obtain ⟨k1, v1⟩ := e
      by_cases he : k1 = k
      · have h2 : assocEraseAll ((k1, v1) :: rest) k = assocEraseAll rest k := by
          simp [assocEraseAll, he]
        rw [h2]
        exact ih
      · have h2 : assocEraseAll ((k1, v1) :: rest) k =
            (k1, v1) :: assocEraseAll rest k := by
          simp [assocEraseAll, he]
        rw [h2]
        simp only [assocFind]
        rw [if_neg he]
        exact ih

theorem assocFind_eraseAll_ne [DecidableEq κ] {k k2 : κ} (hne : k ≠ k2) :
    ∀ (l : List (κ × β)), assocFind (assocEraseAll l k2) k = assocFind l k := by
  intro l
  induction l with
  | nil => rfl
  | cons e rest ih =>
      obtain ⟨k1, v1⟩ := e
      by_cases he : k1 = k2
      · have h2 : assocEraseAll ((k1, v1) :: rest) k2 = assocEraseAll rest k2 := by
          simp [assocEraseAll, he]
        rw [h2, ih]
        simp only [assocFind]
        rw [if_neg (fun heq => hne (heq.symm.trans he))]
      · have h2 : assocEraseAll ((k1, v1) :: rest) k2 =
            (k1, v1) :: assocEraseAll rest k2 := by
          simp [assocEraseAll, he]
        rw [h2]
        simp only [assocFind]
        by_cases hk : k1 = k
        · rw [if_pos hk, if_pos hk]
        · rw [if_neg hk, if_neg hk]
          exact ih

theorem assocFind_foldl_erase_of_not_mem [DecidableEq κ] :
    ∀ (rem : List κ) (l : List (κ × β)) (k : κ), k ∉ rem →
      assocFind (rem.foldl (fun t k2 => assocEraseAll t k2) l) k = assocFind l k := by
  intro rem
  induction rem with
  | nil =>
      intro l k _
      rfl
  | cons r rs ih =>
      intro l k hk
      have hkr : k ≠ r := fun heq => hk (heq ▸ List.mem_cons_self _ _)
      have hks : k ∉ rs := fun h2 => hk (List.mem_cons_of_mem _ h2)
      show assocFind (rs.foldl (fun t k2 => assocEraseAll t k2) (assocEraseAll l r)) k =
        assocFind l k
      rw [ih _ k hks]
      exact assocFind_eraseAll_ne hkr l

theorem assocFind_foldl_erase_of_mem [DecidableEq κ] :
    ∀ (rem : List κ) (l : List (κ × β)) (k : κ), k ∈ rem →
      assocFind (rem.foldl (fun t k2 => assocEraseAll t k2) l) k = none := by
  intro rem
  induction rem with
  | nil =>
      intro l k hk
      simp at hk
  | cons r rs ih =>
      intro l k hk
      show assocFind (rs.foldl (fun t k2 => assocEraseAll t k2) (assocEraseAll l r)) k =
        none
      by_cases hks : k ∈ rs
      · exact ih _ k hks
      · rcases List.mem_cons.mp hk with rfl | h2
        · rw [assocFind_foldl_erase_of_not_mem rs _ k hks]
          exact assocFind_eraseAll_self _
        · exact absurd h2 hks

/-! Shape of the fare loop for entries that are not being collected. -/

theorem fareStep_shape (env : TickEnv) (maxW : ℤ) (loc : Coord)
    (plan : Coord → Coord → List Coord) (bidf : ℤ → Coord → Coord → ℚ → Bool)
    (acc : LoopAcc) (e : OfferKey × FareInfo) :
    (∃ x, (fareStep env maxW loc plan bidf acc e).fares = acc.fares ++ [(e.1, x)]) ∧
    ((fareStep env maxW loc plan bidf acc e).toRemove = acc.toRemove ∨
     (fareStep env maxW loc plan bidf acc e).toRemove = acc.toRemove ++ [e.1]) := by
  unfold fareStep
  by_cases h1 : acc.path = [] ∧ e.2.allocated = true ∧ acc.passenger = none
  · rw [if_pos h1]
    by_cases h2 : loc = (e.1.2.1, e.1.2.2)
    · rw [if_pos h2]
      cases env.pickup e.1 with
      | some pdest => exact ⟨⟨e.2, rfl⟩, Or.inr rfl⟩
      | none => exact ⟨⟨e.2, rfl⟩, Or.inr rfl⟩
    · rw [if_neg h2]
      exact ⟨⟨e.2, rfl⟩, Or.inl rfl⟩
  · rw [if_neg h1]
    by_cases h3 : env.simTime - e.1.1 > maxW
    · rw [if_pos h3]
      exact ⟨⟨e.2, rfl⟩, Or.inr rfl⟩
    · rw [if_neg h3]
      by_cases h4 : e.2.bid = 0
      · rw [if_pos h4]
        by_cases h5 : bidf e.1.1 (e.1.2.1, e.1.2.2) e.2.destination e.2.price = true
        · rw [if_pos h5]
          exact ⟨⟨_, rfl⟩, Or.inl rfl⟩
        · rw [if_neg h5]
          exact ⟨⟨_, rfl⟩, Or.inl rfl⟩
      · rw [if_neg h4]
        exact ⟨⟨e.2, rfl⟩, Or.inl rfl⟩

theorem fareStep_unalloc_expire (env : TickEnv) (maxW : ℤ) (loc : Coord)
    (plan : Coord → Coord → List Coord) (bidf : ℤ → Coord → Coord → ℚ → Bool)
    (acc : LoopAcc) (e : OfferKey × FareInfo) (halloc : e.2.allocated = false)
    (hexp : env.simTime - e.1.1 > maxW) :
    fareStep env maxW loc plan bidf acc e =
      { acc with fares := acc.fares ++ [e], toRemove := acc.toRemove ++ [e.1] } := by
  have hc1 : ¬(acc.path = [] ∧ e.2.allocated = true ∧ acc.passenger = none) := by
    rintro ⟨_, ha, _⟩
    rw [halloc] at ha
    exact Bool.false_ne_true ha
  unfold fareStep
  rw [if_neg hc1, if_pos hexp]

theorem fareStep_unalloc_stay (env : TickEnv) (maxW : ℤ) (loc : Coord)
    (plan : Coord → Coord → List Coord) (bidf : ℤ → Coord → Coord → ℚ → Bool)
    (acc : LoopAcc) (e : OfferKey × FareInfo) (halloc : e.2.allocated = false)
    (hnoexp : ¬(env.simTime - e.1.1 > maxW)) :
    ∃ x, fareStep env maxW loc plan bidf acc e =
      { acc with fares := acc.fares ++ [(e.1, x)] } := by
  have hc1 : ¬(acc.path = [] ∧ e.2.allocated = true ∧ acc.passenger = none) := by
    rintro ⟨_, ha, _⟩
    rw [halloc] at ha
    exact Bool.false_ne_true ha
  unfold fareStep
  rw [if_neg hc1, if_neg hnoexp]
  by_cases h4 : e.2.bid = 0
  · rw [if_pos h4]
    by_cases h5 : bidf e.1.1 (e.1.2.1, e.1.2.2) e.2.destination e.2.price = true
    · rw [if_pos h5]
      exact ⟨_, rfl⟩
    · rw [if_neg h5]
      exact ⟨_, rfl⟩
  · rw [if_neg h4]
    exact ⟨e.2, rfl⟩

/-- Entries whose key differs from `k` never add `k` to `faresToRemove` and
never disturb the `k` binding of the rebuilt table. -/
theorem fareLoop_other (env : TickEnv) (maxW : ℤ) (loc : Coord)
    (plan : Coord → Coord → List Coord) (bidf : ℤ → Coord → Coord → ℚ → Bool) :
    ∀ (l : List (OfferKey × FareInfo)) (acc : LoopAcc) (k : OfferKey),
      (∀ e ∈ l, e.1 ≠ k) →
      ((k ∈ (l.foldl (fareStep env maxW loc plan bidf) acc).toRemove ↔
        k ∈ acc.toRemove) ∧
       assocFind (l.foldl (fareStep env maxW loc plan bidf) acc).fares k =
         assocFind acc.fares k) := by
  intro l
  induction l with
  | nil =>
      intro acc k _
      exact ⟨Iff.rfl, rfl⟩
  | cons e rest ih =>
      intro acc k hne
      have hek : e.1 ≠ k := hne e (List.mem_cons_self _ _)
      obtain ⟨⟨x, hx⟩, hrem⟩ := fareStep_shape env maxW loc plan bidf acc e
      have hfold : (e :: rest).foldl (fareStep env maxW loc plan bidf) acc =
          rest.foldl (fareStep env maxW loc plan bidf)
            (fareStep env maxW loc plan bidf acc e) := rfl
      rw [hfold]
      obtain ⟨ih1, ih2⟩ := ih (fareStep env maxW loc plan bidf acc e) k
        (fun e2 he2 => hne e2 (List.mem_cons_of_mem _ he2))
      refine ⟨?_, ?_⟩
      · rw [ih1]
        rcases hrem with h | h
        · rw [h]
        · rw [h]
          constructor
          · intro hk
            rcases List.mem_append.mp hk with h2 | h2
            · exact h2
            · exact absurd (List.mem_singleton.mp h2)
                (fun heq => hek heq.symm)
          · intro hk
            exact List.mem_append.mpr (Or.inl hk)
      · rw [ih2, hx]
        exact assocFind_append_right_ne acc.fares (e.1, x) hek

/-- Characterisation of the fare loop for a non-allocated entry under unique
keys: it lands in `faresToRemove` exactly when more than the **taxi's own**
`_maxFareWait` has elapsed since its call time, and its key always stays
bound in the rebuilt table. -/
theorem fareLoop_unalloc (env : TickEnv) (maxW : ℤ) (loc : Coord)
    (plan : Coord → Coord → List Coord) (bidf : ℤ → Coord → Coord → ℚ → Bool) :
    ∀ (l : List (OfferKey × FareInfo)) (acc : LoopAcc) (k : OfferKey) (fi : FareInfo),
      (k, fi) ∈ l → fi.allocated = false →
      ((acc.fares ++ l).map Prod.fst).Nodup → k ∉ acc.toRemove →
      ((k ∈ (l.foldl (fareStep env maxW loc plan bidf) acc).toRemove ↔
         env.simTime - k.1 > maxW) ∧
       (assocFind (l.foldl (fareStep env maxW loc plan bidf) acc).fares k).isSome
         = true) := by
  intro l
  induction l with
  | nil =>
      intro acc k fi hmem
      simp at hmem
  | cons e rest ih =>
      intro acc k fi hmem halloc hnodup hkrem
      have hfold : (e :: rest).foldl (fareStep env maxW loc plan bidf) acc =
          rest.foldl (fareStep env maxW loc plan bidf)
            (fareStep env maxW loc plan bidf acc e) := rfl
      have hkeys : ((acc.fares ++ e :: rest).map Prod.fst) =
          acc.fares.map Prod.fst ++ e.1 :: rest.map Prod.fst := by simp
      rw [hkeys] at hnodup
      obtain ⟨hnd1, hnd2, hdisj⟩ := List.nodup_append.mp hnodup
      by_cases hek : e.1 = k
      · have hknr : k ∉ rest.map Prod.fst := by
          rw [← hek]
          exact (List.nodup_cons.mp hnd2).1
        have hkaf : k ∉ acc.fares.map Prod.fst := by
          intro hin
          exact hdisj hin (hek ▸ List.mem_cons_self _ _)
        have hefi : e = (k, fi) := by
          rcases List.mem_cons.mp hmem with h | h
          · exact h.symm
          · exact absurd (List.mem_map.mpr ⟨(k, fi), h, rfl⟩) hknr
        have he2 : e.2.allocated = false := by
          rw [hefi]
          exact halloc
        have hrestne : ∀ e2 ∈ rest, e2.1 ≠ k :=
          fun e2 he2m heq => hknr (List.mem_map.mpr ⟨e2, he2m, heq⟩)
        have hnone := assocFind_eq_none_of_not_mem_keys acc.fares k hkaf
        by_cases hexp : env.simTime - e.1.1 > maxW
        · have hstep := fareStep_unalloc_expire env maxW loc plan bidf acc e he2 hexp
          rw [hfold, hstep]
          obtain ⟨ho1, ho2⟩ := fareLoop_other env maxW loc plan bidf rest
            { acc with fares := acc.fares ++ [e], toRemove := acc.toRemove ++ [e.1] }
            k hrestne
          refine ⟨?_, ?_⟩
          · rw [ho1]
            constructor
            · intro _
              rw [hek] at hexp
              exact hexp
            · intro _
              refine List.mem_append.mpr (Or.inr ?_)
              rw [hek]
              exact List.mem_singleton_self _
          · rw [ho2]
            show (assocFind (acc.fares ++ [e]) k).isSome = true
            rw [hefi, assocFind_append_right_self acc.fares fi hnone]
            rfl
        · obtain ⟨x, hstep⟩ :=
            fareStep_unalloc_stay env maxW loc plan bidf acc e he2 hexp
          rw [hfold, hstep]
          obtain ⟨ho1, ho2⟩ := fareLoop_other env maxW loc plan bidf rest
            { acc with fares := acc.fares ++ [(e.1, x)] } k hrestne
          refine ⟨?_, ?_⟩
          · rw [ho1]
            constructor
            · intro hk
              exact absurd hk hkrem
            · intro hc
              rw [hek] at hexp
              exact absurd hc hexp
          · rw [ho2]
            show (assocFind (acc.fares ++ [(e.1, x)]) k).isSome = true
            rw [hek, assocFind_append_right_self acc.fares x hnone]
            rfl
      · have hmem2 : (k, fi) ∈ rest := by
          rcases List.mem_cons.mp hmem with h | h
          · exact absurd (by rw [← h]) hek
          · exact h
        obtain ⟨⟨x, hx⟩, hrem⟩ := fareStep_shape env maxW loc plan bidf acc e
        rw [hfold]
        refine ih (fareStep env maxW loc plan bidf acc e) k fi hmem2 halloc ?_ ?_
        · rw [hx]
          have halign : (acc.fares ++ [(e.1, x)]) ++ rest =
              acc.fares ++ ((e.1, x) :: rest) := by simp
          rw [halign]
          have hkeys2 : ((acc.fares ++ (e.1, x) :: rest).map Prod.fst) =
              acc.fares.map Prod.fst ++ e.1 :: rest.map Prod.fst := by simp
          rw [hkeys2]
          exact hnodup
        · intro hkin
          rcases hrem with h | h
          · rw [h] at hkin
            exact hkrem hkin
          · rw [h] at hkin
            rcases List.mem_append.mp hkin with h2 | h2
            · exact hkrem h2
            · exact hek (List.mem_singleton.mp h2).symm

theorem offDutyCheck_stable (env : TickEnv) (st : TaxiSt) :
    (offDutyCheck env st).availableFares = st.availableFares ∧
    (offDutyCheck env st).maxFareWait = st.maxFareWait := by
  unfold offDutyCheck
  by_cases h : st.account ≤ 0 ∧ st.passenger = none
  · rw [if_pos h]
    exact ⟨rfl, rfl⟩
  · rw [if_neg h]
    exact ⟨rfl, rfl⟩

theorem dropoffCheck_shape (env : TickEnv) (plan : Coord → Coord → List Coord)
    (st : TaxiSt) :
    ∃ p ps, dropoffCheck env plan st = { st with path := p, passenger := ps } := by
  unfold dropoffCheck
  by_cases h : st.path = []
  · rw [if_pos h]
    cases hp : st.passenger with
    | none =>
        refine ⟨st.path, none, ?_⟩
        show st = { st with path := st.path, passenger := none }
        rw [← hp]
    | some pdest =>
        by_cases hd : env.dropoffOk = true
        · refine ⟨st.path, none, ?_⟩
          show (if env.dropoffOk = true then ({ st with passenger := none } : TaxiSt)
            else if pdest ≠ st.loc then
              { st with path := plan st.loc pdest, passenger := some pdest }
            else st) = { st with path := st.path, passenger := none }
          rw [if_pos hd]
        · by_cases hl : pdest ≠ st.loc
          · refine ⟨plan st.loc pdest, some pdest, ?_⟩
            show (if env.dropoffOk = true then ({ st with passenger := none } : TaxiSt)
              else if pdest ≠ st.loc then
                { st with path := plan st.loc pdest, passenger := some pdest }
              else st) = { st with path := plan st.loc pdest, passenger := some pdest }
            rw [if_neg hd, if_pos hl]
          · refine ⟨st.path, some pdest, ?_⟩
            show (if env.dropoffOk = true then ({ st with passenger := none } : TaxiSt)
              else if pdest ≠ st.loc then
                { st with path := plan st.loc pdest, passenger := some pdest }
              else st) = { st with path := st.path, passenger := some pdest }
            rw [if_neg hd, if_neg hl, ← hp]
  · rw [if_neg h]
    exact ⟨st.path, st.passenger, rfl⟩

theorem dropoffCheck_stable (env : TickEnv) (plan : Coord → Coord → List Coord)
    (st : TaxiSt) :
    (dropoffCheck env plan st).availableFares = st.availableFares ∧
    (dropoffCheck env plan st).maxFareWait = st.maxFareWait := by
  obtain ⟨p, ps, hshape⟩ := dropoffCheck_shape env plan st
  rw [hshape]
  exact ⟨rfl, rfl⟩

theorem farePhase_expiry (env : TickEnv) (plan : Coord → Coord → List Coord)
    (bidf : ℤ → Coord → Coord → ℚ → Bool) (st : TaxiSt) (k : OfferKey)
    (fi : FareInfo) (hmem : (k, fi) ∈ st.availableFares)
    (halloc : fi.allocated = false)
    (hnodup : (st.availableFares.map Prod.fst).Nodup) :
    (assocFind (farePhase env plan bidf st).availableFares k = none ↔
      env.simTime - k.1 > st.maxFareWait) := by
  obtain ⟨hiff, hsome⟩ := fareLoop_unalloc env st.maxFareWait st.loc plan bidf
    st.availableFares ⟨st.path, st.passenger, [], []⟩ k fi hmem halloc
    (by simpa using hnodup) (by simp)
  have hav : (farePhase env plan bidf st).availableFares =
      (st.availableFares.foldl (fareStep env st.maxFareWait st.loc plan bidf)
        ⟨st.path, st.passenger, [], []⟩).toRemove.foldl
        (fun t k2 => assocEraseAll t k2)
        (st.availableFares.foldl (fareStep env st.maxFareWait st.loc plan bidf)
          ⟨st.path, st.passenger, [], []⟩).fares := rfl
  rw [hav]
  constructor
  · intro hnone
    by_contra hnexp
    have hnotin : k ∉ (st.availableFares.foldl
        (fareStep env st.maxFareWait st.loc plan bidf)
        ⟨st.path, st.passenger, [], []⟩).toRemove :=
      fun hkin => hnexp (hiff.mp hkin)
    rw [assocFind_foldl_erase_of_not_mem _ _ _ hnotin] at hnone
    rw [hnone] at hsome
    simp at hsome
  · intro hexp
    exact assocFind_foldl_erase_of_mem _ _ _ (hiff.mpr hexp)

/-- Claim C6, amended.  The expiry check of `clockTick` compares the offer's
age against the **taxi's own** `_maxFareWait` attribute — `FareInfo` stores
no `max_wait` of its own and the dispatcher's per-fare `max_wait` never
reaches the taxi.  For any non-allocated entry of a duplicate-free offer
table, one tick removes the offer from the table iff more than the taxi's
`_maxFareWait` minutes have elapsed since the offer's call time. -/
theorem clockTick_expiry (env : TickEnv) (plan : Coord → Coord → List Coord)
    (bidf : ℤ → Coord → Coord → ℚ → Bool) (st : TaxiSt) (k : OfferKey)
    (fi : FareInfo) (hmem : (k, fi) ∈ st.availableFares)
    (halloc : fi.allocated = false)
    (hnodup : (st.availableFares.map Prod.fst).Nodup) :
    (assocFind (clockTick env plan bidf st).availableFares k = none ↔
      env.simTime - k.1 > st.maxFareWait) := by
  obtain ⟨hav1, hmw1⟩ := offDutyCheck_stable env st
  obtain ⟨hav2, hmw2⟩ := dropoffCheck_stable env plan (offDutyCheck env st)
  have hres := farePhase_expiry env plan bidf
    (dropoffCheck env plan (offDutyCheck env st)) k fi
    (by rw [hav2, hav1]; exact hmem) halloc
    (by rw [hav2, hav1]; exact hnodup)
  rw [hmw2, hmw1] at hres
  exact hres

def cex6Fi : FareInfo := ⟨(9, 9), 20, -1, false⟩

def cex6St : TaxiSt :=
  { loc := (0, 0), path := [(1, 1)], passenger := none, account := 100,
    maxFareWait := 50, onDuty := true, offDutyTime := 0,
    availableFares := [((0, 3, 4), cex6Fi)] }

def cex6Env : TickEnv := { simTime := 6, dropoffOk := false, pickup := fun _ => none }

/-- Counterexample to claim C6 as stated: a fare announced at time 0 whose
dispatcher-side `max_wait` was 5 has aged more than 5 minutes by time 6, yet
the tick leaves it in the taxi's offer table, because the expiry check uses
the taxi's own `_maxFareWait` (here the constructor default 50) and
`FareInfo` carries no `max_wait` at all. -/
theorem clockTick_maxwait_counterexample :
    (6 : ℤ) - 0 > 5 ∧
    assocFind (clockTick cex6Env (fun _ _ => []) (fun _ _ _ _ => false)
      cex6St).availableFares (0, 3, 4) = some cex6Fi := by
  constructor
  · decide
  · with_unfolding_all rfl

def w6Fi : FareInfo := ⟨(9, 9), 20, 0, false⟩

def w6St : TaxiSt :=
  { loc := (0, 0), path := [], passenger := none, account := 100,
    maxFareWait := 5, onDuty := true, offDutyTime := 0,
    availableFares := [((0, 3, 4), w6Fi)] }

def w6Env : TickEnv := { simTime := 6, dropoffOk := false, pickup := fun _ => none }

/-- Witness for the amended expiry theorem: with the taxi's own
`_maxFareWait` set to 5, the time-6 tick does discard the time-0 offer. -/
theorem clockTick_expiry_witness :
    assocFind (clockTick w6Env (fun _ _ => []) (fun _ _ _ _ => false)
      w6St).availableFares (0, 3, 4) = none := by
  have h := clockTick_expiry w6Env (fun _ _ => []) (fun _ _ _ _ => false) w6St
    (0, 3, 4) w6Fi (List.mem_singleton.mpr rfl) rfl (by decide)
  exact h.mpr (by decide)

end RoboUber
